import Mathlib

/-!
Shallow embedding of the poe-market-analysis trade-discovery and
capital-allocation core, with theorems checking the specification's claims
against it.

Python floats are modelled as exact rationals (`ℚ`), calendar dates as natural
day ordinals (`ℕ`), Python dicts as association lists (iteration order is the
list order, matching insertion order of a Python dict), and fallible code as
`Option`.

Sources embedded:
  * scripts/phrecia_time_series_analysis.py  (`best_trade`, `iter_profitable_trades`)
  * scripts/phrecia_strategy.py              (daily choices, opportunities,
    the three allocators, `simulate_daily_strategy`)
  * scripts/phrecia_profit_timeline_gantt.py (`build_trades`, `optimize_trades`)
-/

namespace PoeMarket

/-- A date-indexed price series, as an association list from day ordinal to
price (a Python `Dict[date, float]`). -/
abbrev Series := List (ℕ × ℚ)

/-- Dictionary lookup `series[d]` returning `none` when the day is absent
(`day not in series`). -/
def slookup (s : Series) (d : ℕ) : Option ℚ :=
  (s.find? (fun p => p.1 == d)).map (fun p => p.2)

/-- Embedding of `build_dates(start, end)` from phrecia_strategy.py: all days
from `s` to `e` inclusive (empty when `e < s`). -/
def build_dates (s e : ℕ) : List ℕ :=
  (List.range (e + 1 - s)).map (fun i => s + i)

/-- All ordered pairs `(l[i], l[j])` with `i < j`, in the order a nested
`for i ...: for j in range(i+1, ...)` loop visits them. -/
def listPairs {α : Type} : List α → List (α × α)
  | [] => []
  | x :: rest => rest.map (fun y => (x, y)) ++ listPairs rest

/-! ## phrecia_time_series_analysis.py -/

/-- The `DailyValue` dataclass: one (day, mean value) sample. -/
structure DailyValue where
  day : ℕ
  value : ℚ
deriving DecidableEq, Repr

/-- Result tuple of `best_trade`:
`(buy_day, buy_value, sell_day, sell_value, gain, gain_pct)`; `gain_pct` is
`None` when the buy value is not positive. -/
structure BestTradeResult where
  buy_day : ℕ
  buy_value : ℚ
  sell_day : ℕ
  sell_value : ℚ
  gain : ℚ
  gain_pct : Option ℚ
deriving DecidableEq, Repr

/-- Loop state of `best_trade`: the running minimum and the best pair so far. -/
structure BTState where
  min_day : ℕ
  min_value : ℚ
  best_gain : ℚ
  best_buy_day : ℕ
  best_buy_value : ℚ
  best_sell_day : ℕ
  best_sell_value : ℚ
deriving DecidableEq, Repr

/-- The `for item in values[1:]` loop of `best_trade`: first try to improve the
best pair with (running minimum, item), then update the running minimum. -/
def btLoop : BTState → List DailyValue → BTState
  | st, [] => st
  | st, item :: rest =>
    let gain := item.value - st.min_value
    let st1 : BTState :=
      if gain > st.best_gain then
        { st with best_gain := gain, best_buy_day := st.min_day,
                  best_buy_value := st.min_value, best_sell_day := item.day,
                  best_sell_value := item.value }
      else st
    let st2 : BTState :=
      if item.value < st1.min_value then
        { st1 with min_value := item.value, min_day := item.day }
      else st1
    btLoop st2 rest

/-- Embedding of `best_trade(values)`.  The source initialises `best_gain` to
`-inf`, so the first loop iteration always installs the pair
`(values[0], values[1])`; we start the loop at `values[1]` from exactly that
state, on which the first iteration's `gain > best_gain` test is then a no-op,
and its min-update runs unchanged. -/
def best_trade (values : List DailyValue) : Option BestTradeResult :=
  match values with
  | [] => none
  | [_] => none
  | v0 :: v1 :: rest =>
    let final := btLoop
      { min_day := v0.day, min_value := v0.value,
        best_gain := v1.value - v0.value,
        best_buy_day := v0.day, best_buy_value := v0.value,
        best_sell_day := v1.day, best_sell_value := v1.value }
      (v1 :: rest)
    some
      { buy_day := final.best_buy_day, buy_value := final.best_buy_value,
        sell_day := final.best_sell_day, sell_value := final.best_sell_value,
        gain := final.best_gain,
        gain_pct :=
          if final.best_buy_value > 0 then some (final.best_gain / final.best_buy_value)
          else none }

/-- One yielded tuple of `iter_profitable_trades`:
`(buy_day, buy_value, sell_day, sell_value, gain, gain_pct)`. -/
structure ProfitTrade where
  buy_day : ℕ
  buy_value : ℚ
  sell_day : ℕ
  sell_value : ℚ
  gain : ℚ
  gain_pct : Option ℚ
deriving DecidableEq, Repr

/-- The filter applied by `iter_profitable_trades` to one (buy, sell) pair:
skip when `gain <= min_gain`; with a positive buy value attach
`gain_pct = gain / buy` and (when `min_gain_pct` is supplied) skip when it is
below the bound; with a non-positive buy value skip only when `min_gain_pct`
is supplied. -/
def profitFilter (min_gain : ℚ) (min_gain_pct : Option ℚ) (p : DailyValue × DailyValue) :
    Option ProfitTrade :=
  let gain := p.2.value - p.1.value
  if gain ≤ min_gain then none
  else if p.1.value > 0 then
    let gp := gain / p.1.value
    match min_gain_pct with
    | some m => if gp < m then none else
        some ⟨p.1.day, p.1.value, p.2.day, p.2.value, gain, some gp⟩
    | none => some ⟨p.1.day, p.1.value, p.2.day, p.2.value, gain, some gp⟩
  else
    match min_gain_pct with
    | some _ => none
    | none => some ⟨p.1.day, p.1.value, p.2.day, p.2.value, gain, none⟩

/-- Embedding of `iter_profitable_trades(values, min_gain, min_gain_pct)`: the
nested loops visit every ordered pair of recorded days (the `len < 2` early
return yields the same empty sequence as the empty pair list). -/
def iter_profitable_trades (values : List DailyValue) (min_gain : ℚ)
    (min_gain_pct : Option ℚ) : List ProfitTrade :=
  (listPairs values).filterMap (profitFilter min_gain min_gain_pct)

/-! ## phrecia_strategy.py -/

namespace Strategy

/-- The `Trade` dataclass of phrecia_strategy.py (a realized position). -/
structure Trade where
  asset_id : String
  asset_type : String
  buy_date : ℕ
  sell_date : ℕ
  buy_price : ℚ
  sell_price : ℚ
  units : ℚ
  capital_start : ℚ
  capital_end : ℚ
deriving DecidableEq, Repr

/-- The `Trade.gain` property. -/
def Trade.gain (t : Trade) : ℚ := t.capital_end - t.capital_start

/-- The `Trade.gain_pct` property: guarded division by `capital_start`,
returning the sentinel `0.0` when `capital_start <= 0`. -/
def Trade.gain_pct (t : Trade) : ℚ :=
  if t.capital_start ≤ 0 then 0 else t.gain / t.capital_start

/-- The `DailyChoice` dataclass: the best next-day move for one day. -/
structure DailyChoice where
  day : ℕ
  asset_id : Option String
  asset_type : Option String
  buy_price : Option ℚ
  sell_price : Option ℚ
  factor : ℚ
deriving DecidableEq, Repr

/-- The `Opportunity` dataclass: a candidate adjacent-day trade. -/
structure Opportunity where
  asset_id : String
  buy_date : ℕ
  sell_date : ℕ
  buy_price : ℚ
  sell_price : ℚ
  gain_pct : ℚ
deriving DecidableEq, Repr

/-- The `DailySummary` dataclass: one day's capital accounting. -/
structure DailySummary where
  day : ℕ
  capital_start : ℚ
  capital_end : ℚ
  invested : ℚ
  cash_left : ℚ
  trade_count : ℕ
deriving DecidableEq, Repr

/-- A price map `asset_id -> (date -> price)`, as an association list in dict
iteration order. -/
abbrev PriceMap := List (String × Series)

/-- Loop body of the inner asset scan in `compute_best_daily_choices`: skip
assets not priced on both days or with a non-positive buy price, and keep the
asset whose `factor = sell_price / buy_price` strictly beats the best so far. -/
def bestStep (day next_day : ℕ) (acc : ℚ × Option String × Option ℚ × Option ℚ)
    (entry : String × Series) : ℚ × Option String × Option ℚ × Option ℚ :=
  match slookup entry.2 day, slookup entry.2 next_day with
  | some buy_price, some sell_price =>
    if buy_price ≤ 0 then acc
    else
      let factor := sell_price / buy_price
      if factor > acc.1 then (factor, some entry.1, some buy_price, some sell_price)
      else acc
  | _, _ => acc

/-- The per-day body of `compute_best_daily_choices`: scan every asset with the
baseline factor `1.0` (hold cash) and build the day's `DailyChoice`; the
`asset_type` annotation is `meta[best_asset].asset_type`. -/
def bestChoiceFor (prices : PriceMap) (meta : String → String) (day next_day : ℕ) :
    DailyChoice :=
  let acc := prices.foldl (bestStep day next_day) (1, none, none, none)
  { day := day, asset_id := acc.2.1, asset_type := acc.2.1.map meta,
    buy_price := acc.2.2.1, sell_price := acc.2.2.2, factor := acc.1 }

/-- Embedding of `compute_best_daily_choices(dates, prices, meta)`: one choice
per adjacent `(dates[idx], dates[idx+1])` pair, keyed by the buy day. -/
def compute_best_daily_choices (dates : List ℕ) (prices : PriceMap)
    (meta : String → String) : List (ℕ × DailyChoice) :=
  (dates.zip dates.tail).map (fun p => (p.1, bestChoiceFor prices meta p.1 p.2))

/-- The per-asset test of `build_opportunities` for one adjacent day pair:
both days priced, positive buy price, strictly profitable. -/
def oppOfEntry (day next_day : ℕ) (entry : String × Series) : Option Opportunity :=
  match slookup entry.2 day, slookup entry.2 next_day with
  | some buy_price, some sell_price =>
    if buy_price ≤ 0 ∨ sell_price ≤ buy_price then none
    else some
      { asset_id := entry.1, buy_date := day, sell_date := next_day,
        buy_price := buy_price, sell_price := sell_price,
        gain_pct := (sell_price - buy_price) / buy_price }
  | _, _ => none

/-- Embedding of `build_opportunities(dates, prices)` as the lookup function
`day -> opportunities.get(day, [])`.  A day's list holds, in price-map order,
the qualifying assets for the adjacent pair starting at that day (each asset
contributes at most one opportunity per day, so grouping by buy day preserves
the source's per-day list order). -/
def build_opportunities (dates : List ℕ) (prices : PriceMap) : ℕ → List Opportunity :=
  fun d =>
    match (dates.zip dates.tail).find? (fun p => p.1 == d) with
    | some p => prices.filterMap (oppOfEntry p.1 p.2)
    | none => []

/-- Python's `max(opportunities, key=lambda opp: opp.gain_pct)`: the first
element attaining the maximal `gain_pct` (later elements replace the champion
only when strictly greater). -/
def maxByGainPct : Opportunity → List Opportunity → Opportunity
  | best, [] => best
  | best, o :: rest => maxByGainPct (if o.gain_pct > best.gain_pct then o else best) rest

/-- Embedding of `allocate_all_in(opportunities, capital)`: invest all capital
in the single best-gain opportunity; no-op on an empty day. -/
def allocate_all_in (opportunities : List Opportunity) (capital : ℚ) :
    List Trade × ℚ :=
  match opportunities with
  | [] => ([], capital)
  | o :: rest =>
    let best := maxByGainPct o rest
    let units := capital / best.buy_price
    ([{ asset_id := best.asset_id, asset_type := "",
        buy_date := best.buy_date, sell_date := best.sell_date,
        buy_price := best.buy_price, sell_price := best.sell_price,
        units := units, capital_start := capital,
        capital_end := units * best.sell_price }], 0)

/-- Embedding of `allocate_equal_split(opportunities, capital)`: divide capital
evenly over all of the day's opportunities; no-op on an empty day. -/
def allocate_equal_split (opportunities : List Opportunity) (capital : ℚ) :
    List Trade × ℚ :=
  match opportunities with
  | [] => ([], capital)
  | _ :: _ =>
    let allocation := capital / opportunities.length
    (opportunities.map (fun o =>
      let units := allocation / o.buy_price
      { asset_id := o.asset_id, asset_type := "",
        buy_date := o.buy_date, sell_date := o.sell_date,
        buy_price := o.buy_price, sell_price := o.sell_price,
        units := units, capital_start := allocation,
        capital_end := units * o.sell_price }), 0)

/-- The greedy loop of `allocate_greedy_one_unit` over the already-sorted
opportunity list: buy one unit (spend `buy_price`, later receive `sell_price`)
whenever the remaining cash covers it, skip otherwise. -/
def greedyGo : List Opportunity → ℚ → List Trade → List Trade × ℚ
  | [], remaining, trades => (trades, remaining)
  | o :: rest, remaining, trades =>
    if o.buy_price > remaining then greedyGo rest remaining trades
    else greedyGo rest (remaining - o.buy_price)
      (trades ++
        [{ asset_id := o.asset_id
           asset_type := ""
           buy_date := o.buy_date
           sell_date := o.sell_date
           buy_price := o.buy_price
           sell_price := o.sell_price
           units := 1
           capital_start := o.buy_price
           capital_end := o.sell_price }])

/-- Embedding of `allocate_greedy_one_unit(opportunities, capital)`: process
the opportunities sorted by `gain_pct` descending (Python's stable
`sorted(..., reverse=True)`); no-op on an empty day. -/
def allocate_greedy_one_unit (opportunities : List Opportunity) (capital : ℚ) :
    List Trade × ℚ :=
  match opportunities with
  | [] => ([], capital)
  | _ :: _ =>
    greedyGo (opportunities.mergeSort (fun a b => decide (b.gain_pct ≤ a.gain_pct)))
      capital []

/-- The per-day strategy dispatch of `simulate_daily_strategy`; an unknown
strategy name raises `ValueError`, modelled as `none`. -/
def allocate (strategy_name : String) (opportunities : List Opportunity)
    (capital : ℚ) : Option (List Trade × ℚ) :=
  if strategy_name = "all_in" then some (allocate_all_in opportunities capital)
  else if strategy_name = "equal_split" then some (allocate_equal_split opportunities capital)
  else if strategy_name = "greedy_one_unit" then some (allocate_greedy_one_unit opportunities capital)
  else none

/-- The daily loop of `simulate_daily_strategy`: allocate the day's capital,
settle every opened trade to cash at day end
(`capital_next = cash_left + proceeds`), and carry it to the next day. -/
def simGo (opportunities : ℕ → List Opportunity) (strategy_name : String) :
    List ℕ → ℚ → List DailySummary → List Trade →
    Option (List DailySummary × List Trade × ℚ)
  | [], capital, summaries, trades => some (summaries, trades, capital)
  | day :: rest, capital, summaries, trades =>
    match allocate strategy_name (opportunities day) capital with
    | none => none
    | some (day_trades, cash_left) =>
      let invested := (day_trades.map (fun t => t.capital_start)).sum
      let proceeds := (day_trades.map (fun t => t.capital_end)).sum
      let capital_next := cash_left + proceeds
      simGo opportunities strategy_name rest capital_next
        (summaries ++
          [{ day := day
             capital_start := capital
             capital_end := capital_next
             invested := invested
             cash_left := cash_left
             trade_count := day_trades.length }])
        (trades ++ day_trades)

/-- Embedding of `simulate_daily_strategy(dates, opportunities, strategy_name)`
with the module constant `STARTING_CAPITAL` made an explicit parameter
`starting_capital`: the loop runs over every date but the last
(`range(len(dates) - 1)`). -/
def simulate_daily_strategy (dates : List ℕ) (opportunities : ℕ → List Opportunity)
    (strategy_name : String) (starting_capital : ℚ) :
    Option (List DailySummary × List Trade × ℚ) :=
  simGo opportunities strategy_name dates.dropLast starting_capital [] []

end Strategy

/-! ## phrecia_profit_timeline_gantt.py -/

namespace Gantt

/-- The `Trade` dataclass of phrecia_profit_timeline_gantt.py (a candidate
buy/sell pair found by `build_trades`). -/
structure Trade where
  asset_id : String
  name : String
  type_name : String
  buy_date : ℕ
  sell_date : ℕ
  buy_price : ℚ
  sell_price : ℚ
deriving DecidableEq, Repr

/-- The `Trade.gain_pct` property: guarded division by `buy_price`, returning
the sentinel `0.0` when `buy_price <= 0`. -/
def Trade.gain_pct (t : Trade) : ℚ :=
  if t.buy_price ≤ 0 then 0 else (t.sell_price - t.buy_price) / t.buy_price

/-- The `AssetSeries` dataclass: one asset's price series plus annotations. -/
structure AssetSeries where
  asset_id : String
  type_name : String
  name : String
  series : Series
deriving DecidableEq, Repr

/-- Python's `sorted(asset.series.keys())`. -/
def sortedDays (s : Series) : List ℕ :=
  (s.map (fun p => p.1)).mergeSort (fun a b => decide (a ≤ b))

/-- Embedding of the nested pair loop of `build_trades` for one asset: for
every ordered pair of recorded days, keep the pairs with a positive buy price
and a strictly greater sell price.  (The source hoists the `buy_price <= 0`
test out of the inner loop; skipping per pair yields the same list.) -/
def buildTradesAsset (a : AssetSeries) : List Trade :=
  (listPairs (sortedDays a.series)).filterMap (fun p =>
    match slookup a.series p.1, slookup a.series p.2 with
    | some buy_price, some sell_price =>
      if buy_price ≤ 0 then none
      else if sell_price ≤ buy_price then none
      else some
        { asset_id := a.asset_id
          name := a.name
          type_name := a.type_name
          buy_date := p.1
          sell_date := p.2
          buy_price := buy_price
          sell_price := sell_price }
    | _, _ => none)

/-- Embedding of `build_trades(series_map)`: concatenate every asset's pairs in
map order. -/
def build_trades (series_map : List AssetSeries) : List Trade :=
  series_map.flatMap buildTradesAsset

/-- The `trades_by_buy` defaultdict: the trades whose `buy_date` is the given
day, in `trades` order. -/
def tradesByBuy (trades : List Trade) (d : ℕ) : List Trade :=
  trades.filter (fun t => t.buy_date == d)

/-- The `best_capital` dict of `optimize_trades`: day ordinal to best capital,
`none` when the key is absent. -/
abbrev Table := ℕ → Option ℚ

/-- Dictionary write `m[k] = v`. -/
def tset (m : Table) (k : ℕ) (v : ℚ) : Table :=
  fun x => if x = k then some v else m x

/-- The update pattern `if k not in m or v > m[k]: m[k] = v` used for both
trade edges and the cash carry-forward. -/
def upMax (m : Table) (k : ℕ) (v : ℚ) : Table :=
  match m k with
  | none => tset m k v
  | some old => if v > old then tset m k v else m

/-- The `for trade in trades_by_buy.get(day, [])` loop: relax every trade edge
leaving `day` with the day's capital `c`. -/
def relaxAll (c : ℚ) (ts : List Trade) (m : Table) : Table :=
  ts.foldl (fun m t => upMax m t.sell_date (c / t.buy_price * t.sell_price)) m

/-- The value the seeding branch of `optimize_trades` writes for a date not yet
in `best_capital`: the previous date's entry (the `none` fallback is
unreachable, as the carry-forward of the previous iteration always defines it;
the source would raise `KeyError` there). -/
def seedVal (starting_capital : ℚ) (m : Table) (prev_day : Option ℕ) : ℚ :=
  match prev_day with
  | some p => match m p with
    | some w => w
    | none => starting_capital
  | none => starting_capital

/-- The capital `best_capital[day]` read at the top of one iteration of
`optimize_trades`, the seeding value when the date is not yet in the table. -/
def dpRead (starting_capital : ℚ) (m : Table) (prev_day : Option ℕ) (day : ℕ) : ℚ :=
  match m day with
  | some v => v
  | none => seedVal starting_capital m prev_day

/-- One iteration of the forward scan of `optimize_trades`: seed the current
date if unset, read its capital, relax the trade edges leaving it, then carry
the capital forward to the next date (when one exists). -/
def dpStep (starting_capital : ℚ) (tb : ℕ → List Trade) (prev_day : Option ℕ)
    (day : ℕ) (rest : List ℕ) (m : Table) : Table :=
  let c : ℚ := dpRead starting_capital m prev_day day
  let m1 : Table := match m day with
    | some _ => m
    | none => tset m day c
  let m2 : Table := relaxAll c (tb day) m1
  match rest with
  | [] => m2
  | next_day :: _ => upMax m2 next_day c

/-- The date-order forward scan of `optimize_trades`, one `dpStep` per date. -/
def dpScan (starting_capital : ℚ) (tb : ℕ → List Trade) :
    Option ℕ → List ℕ → Table → Table
  | _, [], m => m
  | prev_day, day :: rest, m =>
    dpScan starting_capital tb (some day) rest
      (dpStep starting_capital tb prev_day day rest m)

/-- The `best_capital` table computed by the forward scan of
`optimize_trades(trades, dates)`, with the module constant `STARTING_CAPITAL`
made an explicit parameter (the source indexes `dates[0]`, so the table is
empty for an empty date list).  The path reconstruction then reads this
table's value at the final date as the run's ending capital. -/
def optimize_table (starting_capital : ℚ) (trades : List Trade) (dates : List ℕ) :
    Table :=
  match dates with
  | [] => fun _ => none
  | d0 :: _ =>
    dpScan starting_capital (tradesByBuy trades) none dates
      (tset (fun _ => none) d0 starting_capital)

end Gantt

/-! ## Helper lemmas on the allocators -/

namespace Strategy

lemma sum_map_const_q {α : Type} (l : List α) (a : ℚ) :
    (l.map (fun _ => a)).sum = l.length * a := by
  induction l with
  | nil => simp
  | cons x xs ih => simp [ih]; ring

lemma allocate_all_in_conserve (opportunities : List Opportunity) (capital : ℚ) :
    (((allocate_all_in opportunities capital).1).map (fun t => t.capital_start)).sum
      + (allocate_all_in opportunities capital).2 = capital := by
  cases opportunities <;> simp [allocate_all_in]

lemma allocate_all_in_left_nonneg (opportunities : List Opportunity) (capital : ℚ)
    (h : 0 ≤ capital) : 0 ≤ (allocate_all_in opportunities capital).2 := by
  cases opportunities <;> simp [allocate_all_in, h]

lemma equal_split_start_sum_aux (l : List Opportunity) (al : ℚ) :
    ((l.map (fun o' : Opportunity =>
      ({ asset_id := o'.asset_id, asset_type := "", buy_date := o'.buy_date,
         sell_date := o'.sell_date, buy_price := o'.buy_price,
         sell_price := o'.sell_price, units := al / o'.buy_price,
         capital_start := al,
         capital_end := al / o'.buy_price * o'.sell_price } : Trade))).map
      (fun t => t.capital_start)).sum = l.length * al := by
  induction l with
  | nil => simp
  | cons x xs ih =>
    simp only [List.map_cons, List.sum_cons, List.length_cons]
    rw [List.map_map] at ih ⊢
    rw [ih]
    push_cast
    ring

lemma allocate_equal_split_conserve (opportunities : List Opportunity) (capital : ℚ) :
    (((allocate_equal_split opportunities capital).1).map (fun t => t.capital_start)).sum
      + (allocate_equal_split opportunities capital).2 = capital := by
  cases opportunities with
  | nil => simp [allocate_equal_split]
  | cons o rest =>
    have haux := equal_split_start_sum_aux (o :: rest)
      (capital / ((o :: rest).length : ℚ))
    simp only [allocate_equal_split]
    rw [haux]
    have hlen : (((o :: rest).length : ℚ)) ≠ 0 :=
      Nat.cast_ne_zero.mpr (by simp)
    rw [mul_comm, div_mul_cancel₀ _ hlen, add_zero]

lemma allocate_equal_split_left_nonneg (opportunities : List Opportunity) (capital : ℚ)
    (h : 0 ≤ capital) : 0 ≤ (allocate_equal_split opportunities capital).2 := by
  cases opportunities <;> simp [allocate_equal_split, h]

lemma greedyGo_sum (l : List Opportunity) : ∀ (r : ℚ) (ts : List Trade),
    (((greedyGo l r ts).1).map (fun t => t.capital_start)).sum + (greedyGo l r ts).2
      = (ts.map (fun t => t.capital_start)).sum + r := by
  induction l with
  | nil => intro r ts; simp [greedyGo]
  | cons o rest ih =>
    intro r ts
    by_cases h : o.buy_price > r
    · simp only [greedyGo, if_pos h]
      exact ih r ts
    · simp only [greedyGo, if_neg h]
      rw [ih]
      simp only [List.map_append, List.sum_append, List.map_cons, List.sum_cons,
        List.map_nil, List.sum_nil]
      ring

lemma greedyGo_left_nonneg (l : List Opportunity) : ∀ (r : ℚ) (ts : List Trade),
    0 ≤ r → 0 ≤ (greedyGo l r ts).2 := by
  induction l with
  | nil => intro r ts h; simpa [greedyGo] using h
  | cons o rest ih =>
    intro r ts h
    by_cases hb : o.buy_price > r
    · simp only [greedyGo, if_pos hb]
      exact ih r ts h
    · simp only [greedyGo, if_neg hb]
      exact ih _ _ (by linarith [not_lt.mp hb])

lemma allocate_greedy_conserve (opportunities : List Opportunity) (capital : ℚ) :
    (((allocate_greedy_one_unit opportunities capital).1).map (fun t => t.capital_start)).sum
      + (allocate_greedy_one_unit opportunities capital).2 = capital := by
  cases opportunities with
  | nil => simp [allocate_greedy_one_unit]
  | cons o rest =>
    simp only [allocate_greedy_one_unit]
    rw [greedyGo_sum]
    simp

lemma allocate_greedy_left_nonneg (opportunities : List Opportunity) (capital : ℚ)
    (h : 0 ≤ capital) : 0 ≤ (allocate_greedy_one_unit opportunities capital).2 := by
  cases opportunities with
  | nil => simpa [allocate_greedy_one_unit] using h
  | cons o rest =>
    simp only [allocate_greedy_one_unit]
    exact greedyGo_left_nonneg _ _ _ h

lemma allocate_known (strategy_name : String)
    (hname : strategy_name ∈ (["all_in", "equal_split", "greedy_one_unit"] : List String))
    (opportunities : List Opportunity) (capital : ℚ) :
    allocate strategy_name opportunities capital =
      some (allocate_all_in opportunities capital) ∨
    allocate strategy_name opportunities capital =
      some (allocate_equal_split opportunities capital) ∨
    allocate strategy_name opportunities capital =
      some (allocate_greedy_one_unit opportunities capital) := by
  simp only [List.mem_cons, List.mem_singleton, List.not_mem_nil, or_false] at hname
  rcases hname with h | h | h <;> subst h <;> simp [allocate]

end Strategy

/-! ## Helper lemmas on the best-daily-choice scan and the greedy loop -/

namespace Strategy

lemma bestStep_fst_ge (day nd : ℕ) (acc : ℚ × Option String × Option ℚ × Option ℚ)
    (e : String × Series) : acc.1 ≤ (bestStep day nd acc e).1 := by
  unfold bestStep
  rcases hd : slookup e.2 day with _ | bp <;>
    rcases hn : slookup e.2 nd with _ | sp
  · exact le_refl _
  · exact le_refl _
  · exact le_refl _
  · show acc.1 ≤ (if bp ≤ 0 then acc else
      if sp / bp > acc.1 then (sp / bp, some e.1, some bp, some sp) else acc).1
    split_ifs with h1 h2
    · exact le_refl _
    · exact le_of_lt h2
    · exact le_refl _

lemma bestFold_fst_ge (day nd : ℕ) (prices : PriceMap) :
    ∀ acc, acc.1 ≤ (prices.foldl (bestStep day nd) acc).1 := by
  induction prices with
  | nil => intro acc; simp
  | cons e rest ih =>
    intro acc
    rw [List.foldl_cons]
    exact le_trans (bestStep_fst_ge day nd acc e) (ih _)

lemma bestFold_dominates (day nd : ℕ) (prices : PriceMap) :
    ∀ acc, ∀ e ∈ prices, ∀ bp sp, slookup e.2 day = some bp →
      slookup e.2 nd = some sp → 0 < bp →
      sp / bp ≤ (prices.foldl (bestStep day nd) acc).1 := by
  induction prices with
  | nil => intro acc e he; simp at he
  | cons f rest ih =>
    intro acc e he bp sp hd hn hbp
    rw [List.foldl_cons]
    rcases List.mem_cons.mp he with rfl | he
    · refine le_trans ?_ (bestFold_fst_ge day nd rest _)
      unfold bestStep
      rw [hd, hn]
      simp only []
      rw [if_neg (not_le.mpr hbp)]
      split_ifs with h
      · simp
      · exact not_lt.mp h
    · exact ih _ e he bp sp hd hn hbp

lemma bestFold_sound (day nd : ℕ) (prices : PriceMap) :
    ∀ (acc : ℚ × Option String × Option ℚ × Option ℚ) (l : PriceMap),
    (acc = (1, none, none, none) ∨
      ∃ e ∈ l, ∃ bp sp, slookup e.2 day = some bp ∧ slookup e.2 nd = some sp ∧
        0 < bp ∧ 1 < sp / bp ∧ acc = (sp / bp, some e.1, some bp, some sp)) →
    ((prices.foldl (bestStep day nd) acc) = (1, none, none, none) ∨
      ∃ e ∈ l ++ prices, ∃ bp sp, slookup e.2 day = some bp ∧
        slookup e.2 nd = some sp ∧ 0 < bp ∧ 1 < sp / bp ∧
        (prices.foldl (bestStep day nd) acc)
          = (sp / bp, some e.1, some bp, some sp)) := by
  induction prices with
  | nil =>
    intro acc l h
    rcases h with h | ⟨e, he, bp, sp, h⟩
    · exact Or.inl h
    · exact Or.inr ⟨e, by simpa using he, bp, sp, h⟩
  | cons f rest ih =>
    intro acc l h
    have hone : (1:ℚ) ≤ acc.1 := by
      rcases h with rfl | ⟨e, he, bp, sp, -, -, -, hgt, rfl⟩
      · simp
      · simpa using le_of_lt hgt
    have hstep : (bestStep day nd acc f) = acc ∨
        ∃ bp sp, slookup f.2 day = some bp ∧ slookup f.2 nd = some sp ∧
          0 < bp ∧ 1 < sp / bp ∧
          (bestStep day nd acc f) = (sp / bp, some f.1, some bp, some sp) := by
      rcases hd : slookup f.2 day with _ | bp <;>
        rcases hn : slookup f.2 nd with _ | sp <;>
        unfold bestStep <;> rw [hd, hn] <;> simp only []
      · exact Or.inl trivial
      · exact Or.inl trivial
      · exact Or.inl trivial
      · split_ifs with h1 h2
        · exact Or.inl rfl
        · exact Or.inr ⟨bp, sp, rfl, rfl, not_le.mp h1, lt_of_le_of_lt hone h2, rfl⟩
        · exact Or.inl rfl
    rw [List.foldl_cons]
    rcases hstep with heq | ⟨bp, sp, hd, hn, hbp, hgt, heq⟩
    · rw [heq]
      have := ih acc (l ++ [f]) (by
        rcases h with h | ⟨e, he, bps, sps, hh⟩
        · exact Or.inl h
        · exact Or.inr ⟨e, List.mem_append_left _ he, bps, sps, hh⟩)
      rcases this with h' | ⟨e, he, bps, sps, hh⟩
      · exact Or.inl h'
      · refine Or.inr ⟨e, ?_, bps, sps, hh⟩
        simpa [List.append_assoc] using he
    · rw [heq]
      have := ih (sp / bp, some f.1, some bp, some sp) (l ++ [f])
        (Or.inr ⟨f, List.mem_append_right _ (List.mem_singleton_self f), bp, sp,
          hd, hn, hbp, hgt, rfl⟩)
      rcases this with h' | ⟨e, he, bps, sps, hh⟩
      · exact Or.inl h'
      · refine Or.inr ⟨e, ?_, bps, sps, hh⟩
        simpa [List.append_assoc] using he

lemma greedyGo_mem_shape (l : List Opportunity) : ∀ (r : ℚ) (ts : List Trade),
    ∀ t ∈ (greedyGo l r ts).1, t ∈ ts ∨
      ∃ o ∈ l, t =
        { asset_id := o.asset_id, asset_type := "", buy_date := o.buy_date,
          sell_date := o.sell_date, buy_price := o.buy_price,
          sell_price := o.sell_price, units := 1,
          capital_start := o.buy_price, capital_end := o.sell_price } := by
  induction l with
  | nil => intro r ts t ht; exact Or.inl (by simpa [greedyGo] using ht)
  | cons o rest ih =>
    intro r ts t ht
    by_cases h : o.buy_price > r
    · rw [greedyGo, if_pos h] at ht
      rcases ih r ts t ht with h1 | ⟨o', ho', h2⟩
      · exact Or.inl h1
      · exact Or.inr ⟨o', List.mem_cons_of_mem _ ho', h2⟩
    · rw [greedyGo, if_neg h] at ht
      rcases ih _ _ t ht with h1 | ⟨o', ho', h2⟩
      · rcases List.mem_append.mp h1 with h2 | h2
        · exact Or.inl h2
        · exact Or.inr ⟨o, List.mem_cons_self o rest, by simpa using h2⟩
      · exact Or.inr ⟨o', List.mem_cons_of_mem _ ho', h2⟩

lemma maxByGainPct_mem : ∀ (rest : List Opportunity) (o : Opportunity),
    maxByGainPct o rest ∈ o :: rest := by
  intro rest
  induction rest with
  | nil => intro o; simp [maxByGainPct]
  | cons p rest ih =>
    intro o
    rw [maxByGainPct]
    by_cases h : p.gain_pct > o.gain_pct
    · rw [if_pos h]
      rcases List.mem_cons.mp (ih p) with h1 | h1
      · rw [h1]; exact List.mem_cons_of_mem _ (List.mem_cons_self _ _)
      · exact List.mem_cons_of_mem _ (List.mem_cons_of_mem _ h1)
    · rw [if_neg h]
      rcases List.mem_cons.mp (ih o) with h1 | h1
      · rw [h1]; exact List.mem_cons_self _ _
      · exact List.mem_cons_of_mem _ (List.mem_cons_of_mem _ h1)

lemma maxByGainPct_ge : ∀ (rest : List Opportunity) (o : Opportunity),
    ∀ o' ∈ o :: rest, o'.gain_pct ≤ (maxByGainPct o rest).gain_pct := by
  intro rest
  induction rest with
  | nil =>
    intro o o' h
    simp only [List.mem_singleton] at h
    simp [maxByGainPct, h]
  | cons p rest ih =>
    intro o o' h
    rw [maxByGainPct]
    have hq1 : o.gain_pct ≤ (if p.gain_pct > o.gain_pct then p else o).gain_pct := by
      split_ifs with hc
      · exact le_of_lt hc
      · exact le_refl _
    have hq2 : p.gain_pct ≤ (if p.gain_pct > o.gain_pct then p else o).gain_pct := by
      split_ifs with hc
      · exact le_refl _
      · exact not_lt.mp hc
    have hqq := ih (if p.gain_pct > o.gain_pct then p else o)
      (if p.gain_pct > o.gain_pct then p else o) (List.mem_cons_self _ _)
    rcases List.mem_cons.mp h with rfl | h1
    · exact le_trans hq1 hqq
    · rcases List.mem_cons.mp h1 with rfl | h2
      · exact le_trans hq2 hqq
      · exact ih _ o' (List.mem_cons_of_mem _ h2)

lemma build_opportunities_mem (dates : List ℕ) (prices : PriceMap) (d : ℕ)
    (o : Opportunity) (ho : o ∈ build_opportunities dates prices d) :
    0 < o.buy_price ∧ o.buy_price < o.sell_price ∧
    o.gain_pct = (o.sell_price - o.buy_price) / o.buy_price ∧
    o.buy_date = d ∧
    ∃ nd, (d, nd) ∈ dates.zip dates.tail ∧ o.sell_date = nd ∧
      ∃ e ∈ prices, e.1 = o.asset_id ∧ slookup e.2 d = some o.buy_price ∧
        slookup e.2 nd = some o.sell_price := by
  unfold build_opportunities at ho
  rcases hf : (dates.zip dates.tail).find? (fun p => p.1 == d) with _ | pr
  · rw [hf] at ho; simp at ho
  · rw [hf] at ho
    have hprd : pr.1 = d := by
      have := List.find?_some hf
      simpa using this
    have hprmem : pr ∈ dates.zip dates.tail := List.mem_of_find?_eq_some hf
    obtain ⟨e, he, hoe⟩ := List.mem_filterMap.mp ho
    unfold oppOfEntry at hoe
    rcases hd : slookup e.2 pr.1 with _ | bp <;> rw [hd] at hoe
    · rcases hn : slookup e.2 pr.2 with _ | sp <;> rw [hn] at hoe <;>
        simp only [] at hoe <;> exact Option.noConfusion hoe
    · rcases hn : slookup e.2 pr.2 with _ | sp <;> rw [hn] at hoe <;>
        simp only [] at hoe
      · exact Option.noConfusion hoe
      by_cases hcond : bp ≤ 0 ∨ sp ≤ bp
      · rw [if_pos hcond] at hoe
        exact Option.noConfusion hoe
      · rw [if_neg hcond] at hoe
        push_neg at hcond
        obtain ⟨hbp, hsp⟩ := hcond
        have ho' := (Option.some.inj hoe).symm
        subst ho'
        refine ⟨hbp, hsp, rfl, hprd.symm ▸ rfl, pr.2, ?_, rfl, e, he, rfl, ?_, hn⟩
        · rw [← hprd]; exact hprmem
        · rw [← hprd]; exact hd

lemma allocate_nonneg (strategy_name : String)
    (hname : strategy_name ∈ (["all_in", "equal_split", "greedy_one_unit"] : List String))
    (opportunities : List Opportunity) (capital : ℚ) (hc : 0 ≤ capital)
    (hprops : ∀ o ∈ opportunities, 0 < o.buy_price ∧ o.buy_price < o.sell_price)
    (day_trades : List Trade) (cash_left : ℚ)
    (h : allocate strategy_name opportunities capital = some (day_trades, cash_left)) :
    0 ≤ cash_left ∧ ∀ t ∈ day_trades, 0 ≤ t.capital_start ∧ 0 ≤ t.capital_end := by
  rcases allocate_known strategy_name hname opportunities capital with ha | ha | ha <;>
    rw [ha] at h <;>
    have hp := Option.some.inj h <;>
    have h1 := congrArg Prod.fst hp <;>
    have h2 := congrArg Prod.snd hp <;>
    dsimp only [Prod.fst, Prod.snd] at h1 h2 <;>
    subst h1 <;> subst h2
  · cases opportunities with
    | nil => exact ⟨by simpa [allocate_all_in] using hc, by simp [allocate_all_in]⟩
    | cons o rest =>
      have hbest := hprops _ (maxByGainPct_mem rest o)
      refine ⟨le_refl 0, ?_⟩
      intro t ht
      rw [allocate_all_in] at ht
      simp only [List.mem_singleton] at ht
      subst ht
      refine ⟨hc, ?_⟩
      exact mul_nonneg (div_nonneg hc (le_of_lt hbest.1))
        (le_of_lt (lt_trans hbest.1 hbest.2))
  · cases opportunities with
    | nil => exact ⟨by simpa [allocate_equal_split] using hc, by simp [allocate_equal_split]⟩
    | cons o rest =>
      have hall : (0:ℚ) ≤ capital / ((o :: rest).length : ℚ) :=
        div_nonneg hc (by positivity)
      refine ⟨le_refl 0, ?_⟩
      intro t ht
      rw [allocate_equal_split] at ht
      simp only [List.mem_map] at ht
      obtain ⟨o', ho', rfl⟩ := ht
      have hop := hprops o' ho'
      refine ⟨hall, ?_⟩
      exact mul_nonneg (div_nonneg hall (le_of_lt hop.1))
        (le_of_lt (lt_trans hop.1 hop.2))
  · cases opportunities with
    | nil => exact ⟨by simpa [allocate_greedy_one_unit] using hc, by simp [allocate_greedy_one_unit]⟩
    | cons o rest =>
      refine ⟨allocate_greedy_left_nonneg (o :: rest) capital hc, ?_⟩
      intro t ht
      rw [allocate_greedy_one_unit] at ht
      rcases greedyGo_mem_shape _ _ _ t ht with hmem | ⟨o', ho', rfl⟩
      · simp at hmem
      · have : o' ∈ o :: rest := (List.mergeSort_perm (o :: rest) _).mem_iff.mp ho'
        have hop := hprops o' this
        exact ⟨le_of_lt hop.1, le_of_lt (lt_trans hop.1 hop.2)⟩

lemma simGo_nonneg (opportunities : ℕ → List Opportunity) (strategy_name : String)
    (hname : strategy_name ∈ (["all_in", "equal_split", "greedy_one_unit"] : List String))
    (hprops : ∀ d, ∀ o ∈ opportunities d, 0 < o.buy_price ∧ o.buy_price < o.sell_price) :
    ∀ (dl : List ℕ) (cap : ℚ) (summs : List DailySummary) (ts : List Trade)
      (res : List DailySummary × List Trade × ℚ),
      0 ≤ cap →
      (∀ s ∈ summs, 0 ≤ s.capital_start ∧ 0 ≤ s.capital_end) →
      (∀ t ∈ ts, 0 ≤ t.capital_start ∧ 0 ≤ t.capital_end) →
      simGo opportunities strategy_name dl cap summs ts = some res →
      0 ≤ res.2.2 ∧ (∀ s ∈ res.1, 0 ≤ s.capital_start ∧ 0 ≤ s.capital_end) ∧
        (∀ t ∈ res.2.1, 0 ≤ t.capital_start ∧ 0 ≤ t.capital_end) := by
  intro dl
  induction dl with
  | nil =>
    intro cap summs ts res hcap hsumms hts hrun
    rw [simGo] at hrun
    have := Option.some.inj hrun
    subst this
    exact ⟨hcap, hsumms, hts⟩
  | cons day rest ih =>
    intro cap summs ts res hcap hsumms hts hrun
    rw [simGo] at hrun
    rcases halloc : allocate strategy_name (opportunities day) cap with _ | pr
    · rw [halloc] at hrun; exact Option.noConfusion hrun
    · rw [halloc] at hrun
      obtain ⟨day_trades, cash_left⟩ := pr
      have hnn := allocate_nonneg strategy_name hname (opportunities day) cap hcap
        (hprops day) day_trades cash_left halloc
      have hproceeds : 0 ≤ (day_trades.map (fun t => t.capital_end)).sum := by
        apply List.sum_nonneg
        intro x hx
        obtain ⟨t, ht, rfl⟩ := List.mem_map.mp hx
        exact (hnn.2 t ht).2
      have hcap' : 0 ≤ cash_left + (day_trades.map (fun t => t.capital_end)).sum :=
        add_nonneg hnn.1 hproceeds
      refine ih _ _ _ res hcap' ?_ ?_ hrun
      · intro s hs
        rcases List.mem_append.mp hs with h1 | h1
        · exact hsumms s h1
        · simp only [List.mem_singleton] at h1
          subst h1
          exact ⟨hcap, hcap'⟩
      · intro t ht
        rcases List.mem_append.mp ht with h1 | h1
        · exact hts t h1
        · exact hnn.2 t h1

lemma factor_le_of_gain_pct_le (o o' : Opportunity)
    (ho : 0 < o.buy_price) (ho' : 0 < o'.buy_price)
    (hgo : o.gain_pct = (o.sell_price - o.buy_price) / o.buy_price)
    (hgo' : o'.gain_pct = (o'.sell_price - o'.buy_price) / o'.buy_price)
    (hle : o.gain_pct ≤ o'.gain_pct) :
    o.sell_price / o.buy_price ≤ o'.sell_price / o'.buy_price := by
  have h1 : o.sell_price / o.buy_price = o.gain_pct + 1 := by
    rw [hgo, div_add_one ho.ne', sub_add_cancel]
  have h2 : o'.sell_price / o'.buy_price = o'.gain_pct + 1 := by
    rw [hgo', div_add_one ho'.ne', sub_add_cancel]
  rw [h1, h2]
  linarith

lemma equal_split_end_sum_aux (l : List Opportunity) (al : ℚ) :
    ((l.map (fun o' : Opportunity =>
      ({ asset_id := o'.asset_id, asset_type := "", buy_date := o'.buy_date,
         sell_date := o'.sell_date, buy_price := o'.buy_price,
         sell_price := o'.sell_price, units := al / o'.buy_price,
         capital_start := al,
         capital_end := al / o'.buy_price * o'.sell_price } : Trade))).map
      (fun t => t.capital_end)).sum
      = (l.map (fun o' => al / o'.buy_price * o'.sell_price)).sum := by
  induction l with
  | nil => simp
  | cons x xs ih =>
    simp only [List.map_cons, List.sum_cons]
    rw [List.map_map] at ih ⊢
    rw [ih]

lemma greedyGo_bound (F : ℚ) (hF : 1 ≤ F) : ∀ (l : List Opportunity) (r : ℚ)
    (ts : List Trade),
    0 ≤ r → (∀ o ∈ l, 0 ≤ o.buy_price ∧ o.sell_price ≤ o.buy_price * F) →
    (greedyGo l r ts).2 + (((greedyGo l r ts).1).map (fun t => t.capital_end)).sum
      ≤ r * F + (ts.map (fun t => t.capital_end)).sum := by
  intro l
  induction l with
  | nil =>
    intro r ts hr _
    rw [greedyGo]
    have : r ≤ r * F := le_mul_of_one_le_right hr hF
    simp only []
    linarith
  | cons o rest ih =>
    intro r ts hr hprops
    by_cases hguard : o.buy_price > r
    · rw [greedyGo, if_pos hguard]
      exact ih r ts hr (fun o' ho' => hprops o' (List.mem_cons_of_mem _ ho'))
    · rw [greedyGo, if_neg hguard]
      have hbr : o.buy_price ≤ r := not_lt.mp hguard
      have hrb : (0:ℚ) ≤ r - o.buy_price := by linarith
      have hstep := ih (r - o.buy_price)
        (ts ++
          [{ asset_id := o.asset_id
             asset_type := ""
             buy_date := o.buy_date
             sell_date := o.sell_date
             buy_price := o.buy_price
             sell_price := o.sell_price
             units := 1
             capital_start := o.buy_price
             capital_end := o.sell_price }])
        hrb (fun o' ho' => hprops o' (List.mem_cons_of_mem _ ho'))
      have hsp := (hprops o (List.mem_cons_self _ _)).2
      rw [List.map_append, List.sum_append] at hstep
      simp only [List.map_cons, List.map_nil, List.sum_cons, List.sum_nil] at hstep
      have hexp : (r - o.buy_price) * F + ((ts.map (fun t => t.capital_end)).sum
          + (o.sell_price + 0)) ≤ r * F + (ts.map (fun t => t.capital_end)).sum := by
        have : o.sell_price ≤ o.buy_price * F := hsp
        ring_nf
        nlinarith [hsp]
      exact le_trans hstep hexp

lemma allocate_bound (strategy_name : String)
    (hname : strategy_name ∈ (["all_in", "equal_split", "greedy_one_unit"] : List String))
    (o₀ : Opportunity) (os : List Opportunity) (capital : ℚ) (hc : 0 ≤ capital)
    (hprops : ∀ o ∈ o₀ :: os, 0 < o.buy_price ∧ o.buy_price < o.sell_price ∧
      o.gain_pct = (o.sell_price - o.buy_price) / o.buy_price)
    (day_trades : List Trade) (cash_left : ℚ)
    (h : allocate strategy_name (o₀ :: os) capital = some (day_trades, cash_left)) :
    cash_left + (day_trades.map (fun t => t.capital_end)).sum
      ≤ capital * ((maxByGainPct o₀ os).sell_price / (maxByGainPct o₀ os).buy_price) := by
  have hbo := hprops _ (maxByGainPct_mem os o₀)
  have hfle : ∀ o ∈ o₀ :: os,
      o.sell_price / o.buy_price
        ≤ (maxByGainPct o₀ os).sell_price / (maxByGainPct o₀ os).buy_price := by
    intro o ho
    have hop := hprops o ho
    exact factor_le_of_gain_pct_le o (maxByGainPct o₀ os) hop.1 hbo.1 hop.2.2
      hbo.2.2 (maxByGainPct_ge os o₀ o ho)
  have hF1 : 1 < (maxByGainPct o₀ os).sell_price / (maxByGainPct o₀ os).buy_price :=
    (one_lt_div hbo.1).mpr hbo.2.1
  have hF0 : 0 ≤ (maxByGainPct o₀ os).sell_price / (maxByGainPct o₀ os).buy_price :=
    le_of_lt (lt_trans zero_lt_one hF1)
  rcases allocate_known strategy_name hname (o₀ :: os) capital with ha | ha | ha <;>
    rw [ha] at h <;>
    have hp := Option.some.inj h <;>
    have h1 := congrArg Prod.fst hp <;>
    have h2 := congrArg Prod.snd hp <;>
    dsimp only [Prod.fst, Prod.snd] at h1 h2 <;>
    subst h1 <;> subst h2
  · rw [allocate_all_in]
    simp only [List.map_cons, List.map_nil, List.sum_cons, List.sum_nil]
    rw [div_mul_eq_mul_div, mul_div_assoc]
    linarith
  · rw [allocate_equal_split]
    rw [equal_split_end_sum_aux (o₀ :: os) (capital / ((o₀ :: os).length : ℚ))]
    have hal : (0:ℚ) ≤ capital / ((o₀ :: os).length : ℚ) :=
      div_nonneg hc (by positivity)
    have hterm : ∀ o ∈ o₀ :: os,
        capital / ((o₀ :: os).length : ℚ) / o.buy_price * o.sell_price
          ≤ capital / ((o₀ :: os).length : ℚ)
            * ((maxByGainPct o₀ os).sell_price / (maxByGainPct o₀ os).buy_price) := by
      intro o ho
      rw [div_mul_eq_mul_div, mul_div_assoc]
      exact mul_le_mul_of_nonneg_left (hfle o ho) hal
    have hsum := List.sum_le_sum hterm
    rw [sum_map_const_q] at hsum
    have hlen : (((o₀ :: os).length : ℚ)) ≠ 0 := Nat.cast_ne_zero.mpr (by simp)
    calc (0:ℚ) + ((o₀ :: os).map (fun o =>
          capital / ((o₀ :: os).length : ℚ) / o.buy_price * o.sell_price)).sum
        = ((o₀ :: os).map (fun o =>
          capital / ((o₀ :: os).length : ℚ) / o.buy_price * o.sell_price)).sum := by
          rw [zero_add]
      _ ≤ ((o₀ :: os).length : ℚ) * (capital / ((o₀ :: os).length : ℚ)
            * ((maxByGainPct o₀ os).sell_price / (maxByGainPct o₀ os).buy_price)) := hsum
      _ = capital * ((maxByGainPct o₀ os).sell_price / (maxByGainPct o₀ os).buy_price) := by
          rw [← mul_assoc, mul_comm (((o₀ :: os).length : ℚ)) (capital / _),
            div_mul_cancel₀ _ hlen]
  · rw [allocate_greedy_one_unit]
    have hperm := List.mergeSort_perm (o₀ :: os)
      (fun a b => decide (b.gain_pct ≤ a.gain_pct))
    have hbound := greedyGo_bound
      ((maxByGainPct o₀ os).sell_price / (maxByGainPct o₀ os).buy_price)
      (le_of_lt hF1)
      ((o₀ :: os).mergeSort (fun a b => decide (b.gain_pct ≤ a.gain_pct)))
      capital [] hc
      (by
        intro o ho
        have homem : o ∈ o₀ :: os := hperm.mem_iff.mp ho
        have hop := hprops o homem
        refine ⟨le_of_lt hop.1, ?_⟩
        have heq : o.sell_price = o.buy_price * (o.sell_price / o.buy_price) := by
          rw [mul_div_cancel₀ _ hop.1.ne']
        rw [heq]
        exact mul_le_mul_of_nonneg_left (hfle o homem) (le_of_lt hop.1))
    simpa using hbound

end Strategy

/-! ## Helper lemmas on pairs, zips and date ranges -/

lemma listPairs_rel {α : Type} (R : α → α → Prop) : ∀ (l : List α),
    List.Pairwise R l → ∀ p ∈ listPairs l, R p.1 p.2 := by
  intro l
  induction l with
  | nil => intro _ p hp; simp [listPairs] at hp
  | cons x t ih =>
    intro hpw p hp
    rw [listPairs] at hp
    obtain ⟨hx, ht⟩ := List.pairwise_cons.mp hpw
    rcases List.mem_append.mp hp with h1 | h1
    · obtain ⟨y, hy, rfl⟩ := List.mem_map.mp h1
      exact hx y hy
    · exact ih ht p h1

lemma listPairs_of_mem_sorted : ∀ (l : List ℕ), List.Pairwise (· < ·) l →
    ∀ x y, x ∈ l → y ∈ l → x < y → (x, y) ∈ listPairs l := by
  intro l
  induction l with
  | nil => intro _ x y hx; simp at hx
  | cons h t ih =>
    intro hpw x y hx hy hxy
    obtain ⟨hht, hpt⟩ := List.pairwise_cons.mp hpw
    rw [listPairs]
    rcases List.mem_cons.mp hx with hxh | hxt
    · rcases List.mem_cons.mp hy with hyh | hyt
      · rw [hxh, hyh] at hxy
        exact absurd hxy (lt_irrefl h)
      · refine List.mem_append_left _ (List.mem_map.mpr ⟨y, hyt, ?_⟩)
        rw [hxh]
    · rcases List.mem_cons.mp hy with hyh | hyt
      · have hhx := hht x hxt
        rw [hyh] at hxy
        exact absurd (lt_trans hhx hxy) (lt_irrefl h)
      · exact List.mem_append_right _ (ih hpt x y hxt hyt hxy)

lemma slookup_some_mem (s : Series) (d : ℕ) (v : ℚ)
    (h : slookup s d = some v) : d ∈ s.map (fun p => p.1) := by
  unfold slookup at h
  rcases hf : s.find? (fun p => p.1 == d) with _ | pr
  · rw [hf] at h; exact Option.noConfusion h
  · have h1 : pr.1 = d := by
      have := List.find?_some hf
      simpa using this
    have h2 := List.mem_of_find?_eq_some hf
    exact h1 ▸ List.mem_map.mpr ⟨pr, h2, rfl⟩

lemma zip_tail_lt : ∀ (l : List ℕ), List.Sorted (· < ·) l →
    ∀ p ∈ l.zip l.tail, p.1 < p.2 := by
  intro l
  induction l with
  | nil => intro _ p hp; simp at hp
  | cons x t ih =>
    cases t with
    | nil => intro _ p hp; simp at hp
    | cons y t2 =>
      intro hs p hp
      rw [List.tail_cons, List.zip_cons_cons] at hp
      rcases List.mem_cons.mp hp with rfl | hp2
      · exact (List.sorted_cons.mp hs).1 y (List.mem_cons_self _ _)
      · exact ih (List.sorted_cons.mp hs).2 p hp2

lemma zip_tail_fun : ∀ (l : List ℕ), l.Nodup →
    ∀ p q, p ∈ l.zip l.tail → q ∈ l.zip l.tail → p.1 = q.1 → p.2 = q.2 := by
  intro l
  induction l with
  | nil => intro _ p q hp; simp at hp
  | cons x t ih =>
    cases t with
    | nil => intro _ p q hp; simp at hp
    | cons y t2 =>
      intro hnd p q hp hq heq
      rw [List.tail_cons, List.zip_cons_cons] at hp hq
      have hxnot : x ∉ y :: t2 := (List.nodup_cons.mp hnd).1
      rcases List.mem_cons.mp hp with rfl | hp2
      · rcases List.mem_cons.mp hq with rfl | hq2
        · rfl
        · exfalso
          have := (List.mem_zip hq2).1
          rw [← heq] at this
          exact hxnot this
      · rcases List.mem_cons.mp hq with rfl | hq2
        · exfalso
          have := (List.mem_zip hp2).1
          rw [heq] at this
          exact hxnot this
        · exact ih (List.nodup_cons.mp hnd).2 p q hp2 hq2 heq

lemma build_dates_eq (s n : ℕ) :
    build_dates s (s + n) = (List.range (n + 1)).map (fun i => s + i) := by
  unfold build_dates
  rw [show s + n + 1 - s = n + 1 from by omega]

lemma build_dates_sorted (s n : ℕ) :
    List.Sorted (· < ·) (build_dates s (s + n)) := by
  rw [build_dates_eq]
  unfold List.Sorted
  rw [List.pairwise_map]
  exact (List.pairwise_lt_range _).imp (fun h => by omega)

lemma build_dates_mem (s n d : ℕ) :
    d ∈ build_dates s (s + n) ↔ s ≤ d ∧ d ≤ s + n := by
  rw [build_dates_eq]
  simp only [List.mem_map, List.mem_range]
  constructor
  · rintro ⟨i, hi, rfl⟩
    omega
  · rintro ⟨h1, h2⟩
    exact ⟨d - s, by omega, by omega⟩

lemma build_dates_cons (s n : ℕ) :
    build_dates s (s + n) = s :: (List.range n).map (fun i => s + (i + 1)) := by
  rw [build_dates_eq, List.range_succ_eq_map]
  rw [List.map_cons, List.map_map]
  simp [Function.comp, Nat.succ_eq_add_one]

lemma build_dates_getLast? (s n : ℕ) :
    (build_dates s (s + n)).getLast? = some (s + n) := by
  rw [build_dates_eq, List.range_succ, List.map_append, List.map_singleton]
  rw [List.getLast?_concat]

lemma build_dates_getLast (s n : ℕ) (h : build_dates s (s + n) ≠ []) :
    (build_dates s (s + n)).getLast h = s + n := by
  have h1 := build_dates_getLast? s n
  rw [List.getLast?_eq_getLast _ h] at h1
  exact Option.some.inj h1

/-! ## Helper lemmas on the dynamic program of optimize_trades -/

namespace Gantt

/-- Pointwise table domination: every defined entry stays defined with a value
at least as large. -/
def tableLe (m m' : Table) : Prop :=
  ∀ k v, m k = some v → ∃ v', m' k = some v' ∧ v ≤ v'

lemma tableLe_refl (m : Table) : tableLe m m :=
  fun k v h => ⟨v, h, le_refl v⟩

lemma tableLe_trans {a b c : Table} (h1 : tableLe a b) (h2 : tableLe b c) :
    tableLe a c := by
  intro k v h
  obtain ⟨v1, hb, hv1⟩ := h1 k v h
  obtain ⟨v2, hc, hv2⟩ := h2 k v1 hb
  exact ⟨v2, hc, le_trans hv1 hv2⟩

lemma tset_self (m : Table) (k : ℕ) (v : ℚ) : tset m k v k = some v := by
  simp [tset]

lemma tset_other (m : Table) (k : ℕ) (v : ℚ) (x : ℕ) (h : x ≠ k) :
    tset m k v x = m x := by
  simp [tset, h]

lemma upMax_le (m : Table) (k : ℕ) (v : ℚ) : tableLe m (upMax m k v) := by
  intro x w hx
  unfold upMax
  rcases hmk : m k with _ | old <;> simp only []
  · by_cases hxk : x = k
    · subst hxk; rw [hx] at hmk; exact Option.noConfusion hmk
    · exact ⟨w, by rw [tset_other m k v x hxk]; exact hx, le_refl w⟩
  · split_ifs with hgt
    · by_cases hxk : x = k
      · subst hxk
        rw [hx] at hmk
        have := Option.some.inj hmk
        subst this
        exact ⟨v, tset_self m x v, le_of_lt hgt⟩
      · exact ⟨w, by rw [tset_other m k v x hxk]; exact hx, le_refl w⟩
    · exact ⟨w, hx, le_refl w⟩

lemma upMax_self (m : Table) (k : ℕ) (v : ℚ) :
    ∃ w, upMax m k v k = some w ∧ v ≤ w := by
  unfold upMax
  rcases hmk : m k with _ | old <;> simp only []
  · exact ⟨v, tset_self m k v, le_refl v⟩
  · split_ifs with hgt
    · exact ⟨v, tset_self m k v, le_refl v⟩
    · exact ⟨old, hmk, not_lt.mp hgt⟩

lemma upMax_other (m : Table) (k : ℕ) (v : ℚ) (x : ℕ) (h : x ≠ k) :
    upMax m k v x = m x := by
  unfold upMax
  rcases m k with _ | old <;> simp only []
  · exact tset_other m k v x h
  · split_ifs with hgt
    · exact tset_other m k v x h
    · rfl

lemma relaxAll_le (c : ℚ) (ts : List Trade) : ∀ m : Table,
    tableLe m (relaxAll c ts m) := by
  induction ts with
  | nil => intro m; exact tableLe_refl m
  | cons t rest ih =>
    intro m
    rw [relaxAll, List.foldl_cons]
    exact tableLe_trans (upMax_le m t.sell_date (c / t.buy_price * t.sell_price))
      (ih _)

lemma relaxAll_get (c : ℚ) (ts : List Trade) : ∀ (m : Table), ∀ t ∈ ts,
    ∃ w, relaxAll c ts m t.sell_date = some w ∧
      c / t.buy_price * t.sell_price ≤ w := by
  induction ts with
  | nil => intro m t ht; simp at ht
  | cons t0 rest ih =>
    intro m t ht
    rw [relaxAll, List.foldl_cons]
    rcases List.mem_cons.mp ht with rfl | hmem
    · obtain ⟨w, hw, hle⟩ :=
        upMax_self m t.sell_date (c / t.buy_price * t.sell_price)
      obtain ⟨w', hw', hle'⟩ := relaxAll_le c rest _ t.sell_date w hw
      exact ⟨w', hw', le_trans hle hle'⟩
    · exact ih _ t hmem

lemma relaxAll_other (c : ℚ) (ts : List Trade) : ∀ (m : Table) (x : ℕ),
    (∀ t ∈ ts, t.sell_date ≠ x) → relaxAll c ts m x = m x := by
  induction ts with
  | nil => intro m x _; rfl
  | cons t rest ih =>
    intro m x hx
    rw [relaxAll, List.foldl_cons]
    have h1 : upMax m t.sell_date (c / t.buy_price * t.sell_price) x = m x :=
      upMax_other _ _ _ _ (fun h => hx t (List.mem_cons_self _ _) h.symm)
    have h2 := ih (upMax m t.sell_date (c / t.buy_price * t.sell_price)) x
      (fun t' ht' => hx t' (List.mem_cons_of_mem _ ht'))
    rw [relaxAll] at h2
    rw [h2, h1]

lemma tset_missing_le (m : Table) (k : ℕ) (v : ℚ) (h : m k = none) :
    tableLe m (tset m k v) := by
  intro x w hx
  by_cases hxk : x = k
  · subst hxk; rw [hx] at h; exact Option.noConfusion h
  · exact ⟨w, by rw [tset_other m k v x hxk]; exact hx, le_refl w⟩

lemma dpStep_le (c0 : ℚ) (tb : ℕ → List Trade) (prev : Option ℕ) (day : ℕ)
    (rest : List ℕ) (m : Table) : tableLe m (dpStep c0 tb prev day rest m) := by
  unfold dpStep
  simp only []
  have h1 : tableLe m (match m day with
      | some _ => m
      | none => tset m day (dpRead c0 m prev day)) := by
    rcases hmd : m day with _ | v <;> simp only []
    · exact tset_missing_le m day _ hmd
    · exact tableLe_refl m
  have h2 := relaxAll_le (dpRead c0 m prev day) (tb day)
    (match m day with
      | some _ => m
      | none => tset m day (dpRead c0 m prev day))
  rcases rest with _ | ⟨nd, rest2⟩ <;> simp only []
  · exact tableLe_trans h1 h2
  · exact tableLe_trans h1 (tableLe_trans h2 (upMax_le _ nd _))

lemma dpRead_eq (c0 : ℚ) (m : Table) (prev : Option ℕ) (day : ℕ) (c : ℚ)
    (h : m day = some c) : dpRead c0 m prev day = c := by
  unfold dpRead; rw [h]

lemma dpStep_day (c0 : ℚ) (tb : ℕ → List Trade) (prev : Option ℕ) (day : ℕ)
    (rest : List ℕ) (m : Table) (c : ℚ) (h : m day = some c)
    (htr : ∀ t ∈ tb day, t.sell_date ≠ day)
    (hrest : ∀ d ∈ rest, d ≠ day) :
    dpStep c0 tb prev day rest m day = some c := by
  have hrd := dpRead_eq c0 m prev day c h
  unfold dpStep
  simp only [hrd, h]
  rcases rest with _ | ⟨nd, rest2⟩ <;> simp only []
  · rw [relaxAll_other _ _ _ day htr]
    exact h
  · rw [upMax_other _ nd c day (fun he => hrest nd (List.mem_cons_self _ _) he.symm)]
    rw [relaxAll_other _ _ _ day htr]
    exact h

lemma dpStep_next (c0 : ℚ) (tb : ℕ → List Trade) (prev : Option ℕ) (day nd : ℕ)
    (rest2 : List ℕ) (m : Table) :
    ∃ w, dpStep c0 tb prev day (nd :: rest2) m nd = some w ∧
      dpRead c0 m prev day ≤ w := by
  unfold dpStep
  exact upMax_self _ nd _

lemma dpStep_trade (c0 : ℚ) (tb : ℕ → List Trade) (prev : Option ℕ) (day : ℕ)
    (rest : List ℕ) (m : Table) (t : Trade) (ht : t ∈ tb day) :
    ∃ w, dpStep c0 tb prev day rest m t.sell_date = some w ∧
      dpRead c0 m prev day / t.buy_price * t.sell_price ≤ w := by
  unfold dpStep
  rcases rest with _ | ⟨nd, rest2⟩ <;> simp only []
  · exact relaxAll_get _ _ _ t ht
  · obtain ⟨w, hw, hle⟩ := relaxAll_get (dpRead c0 m prev day) (tb day) _ t ht
    obtain ⟨w', hw', hle'⟩ := upMax_le _ nd _ t.sell_date w hw
    exact ⟨w', hw', le_trans hle hle'⟩

lemma dpStep_untouched (c0 : ℚ) (tb : ℕ → List Trade) (prev : Option ℕ)
    (day : ℕ) (rest : List ℕ) (m : Table) (x : ℕ)
    (hxd : x ≠ day) (htr : ∀ t ∈ tb day, t.sell_date ≠ x)
    (hrest : ∀ d ∈ rest, d ≠ x) :
    dpStep c0 tb prev day rest m x = m x := by
  unfold dpStep
  have h1 : (match m day with
      | some _ => m
      | none => tset m day (dpRead c0 m prev day)) x = m x := by
    rcases m day with _ | v
    · exact tset_other _ _ _ _ hxd
    · rfl
  rcases rest with _ | ⟨nd, rest2⟩ <;> simp only []
  · rw [relaxAll_other _ _ _ x htr]
    exact h1
  · rw [upMax_other _ nd _ x (fun he => hrest nd (List.mem_cons_self _ _) he.symm)]
    rw [relaxAll_other _ _ _ x htr]
    exact h1

lemma dpScan_le (c0 : ℚ) (tb : ℕ → List Trade) : ∀ (dl : List ℕ)
    (prev : Option ℕ) (m : Table), tableLe m (dpScan c0 tb prev dl m) := by
  intro dl
  induction dl with
  | nil => intro prev m; exact tableLe_refl m
  | cons day rest ih =>
    intro prev m
    rw [dpScan]
    exact tableLe_trans (dpStep_le c0 tb prev day rest m) (ih _ _)

lemma dpScan_untouched (c0 : ℚ) (tb : ℕ → List Trade) : ∀ (dl : List ℕ)
    (prev : Option ℕ) (m : Table) (x : ℕ),
    (∀ d ∈ dl, x < d) → (∀ d ∈ dl, ∀ t ∈ tb d, d < t.sell_date) →
    dpScan c0 tb prev dl m x = m x := by
  intro dl
  induction dl with
  | nil => intro prev m x _ _; rfl
  | cons day rest ih =>
    intro prev m x hlt htr
    rw [dpScan]
    rw [ih _ _ x (fun d hd => hlt d (List.mem_cons_of_mem _ hd))
      (fun d hd => htr d (List.mem_cons_of_mem _ hd))]
    apply dpStep_untouched
    · exact (hlt day (List.mem_cons_self _ _)).ne
    · intro t ht heq
      have h1 := htr day (List.mem_cons_self _ _) t ht
      rw [heq] at h1
      exact absurd h1 (not_lt.mpr (le_of_lt (hlt day (List.mem_cons_self _ _))))
    · intro d hd heq
      exact absurd (heq ▸ hlt d (List.mem_cons_of_mem _ hd)) (lt_irrefl x)

lemma dpScan_head_props (c0 : ℚ) (tb : ℕ → List Trade) : ∀ (rest : List ℕ)
    (day : ℕ) (prev : Option ℕ) (m : Table) (c : ℚ),
    List.Sorted (· < ·) (day :: rest) →
    (∀ d ∈ day :: rest, ∀ t ∈ tb d, d < t.sell_date) →
    m day = some c →
    dpScan c0 tb prev (day :: rest) m day = some c ∧
    (∀ d ∈ day :: rest, ∃ v, dpScan c0 tb prev (day :: rest) m d = some v ∧ c ≤ v) := by
  intro rest
  induction rest with
  | nil =>
    intro day prev m c _ htr hm
    have hday : dpScan c0 tb prev [day] m day = some c := by
      rw [dpScan, dpScan]
      exact dpStep_day c0 tb prev day [] m c hm
        (fun t ht => (htr day (List.mem_cons_self _ _) t ht).ne')
        (fun d hd => absurd hd (List.not_mem_nil d))
    refine ⟨hday, ?_⟩
    intro d hd
    simp only [List.mem_singleton] at hd
    subst hd
    exact ⟨c, hday, le_refl c⟩
  | cons nd rest2 ih =>
    intro day prev m c hsort htr hm
    rw [dpScan]
    have hlt : ∀ d ∈ nd :: rest2, day < d :=
      (List.sorted_cons.mp hsort).1
    have hsort' : List.Sorted (· < ·) (nd :: rest2) :=
      (List.sorted_cons.mp hsort).2
    have htr' : ∀ d ∈ nd :: rest2, ∀ t ∈ tb d, d < t.sell_date :=
      fun d hd => htr d (List.mem_cons_of_mem _ hd)
    have hday' : dpStep c0 tb prev day (nd :: rest2) m day = some c :=
      dpStep_day c0 tb prev day (nd :: rest2) m c hm
        (fun t ht => (htr day (List.mem_cons_self _ _) t ht).ne')
        (fun d hd => (hlt d hd).ne')
    obtain ⟨w0, hw0, hcw0⟩ := dpStep_next c0 tb prev day nd rest2 m
    rw [dpRead_eq c0 m prev day c hm] at hcw0
    have ih' := ih nd (some day) (dpStep c0 tb prev day (nd :: rest2) m) w0
      hsort' htr' hw0
    have hdayfinal :
        dpScan c0 tb (some day) (nd :: rest2)
          (dpStep c0 tb prev day (nd :: rest2) m) day = some c := by
      rw [dpScan_untouched c0 tb (nd :: rest2) (some day) _ day hlt htr']
      exact hday'
    refine ⟨hdayfinal, ?_⟩
    intro d hd
    rcases List.mem_cons.mp hd with rfl | hd2
    · exact ⟨c, hdayfinal, le_refl c⟩
    · obtain ⟨v, hv, hwv⟩ := ih'.2 d hd2
      exact ⟨v, hv, le_trans hcw0 hwv⟩

lemma dpScan_descend (c0 : ℚ) (tb : ℕ → List Trade) : ∀ (dl : List ℕ)
    (prev : Option ℕ) (m : Table) (d : ℕ),
    List.Sorted (· < ·) dl →
    (∀ d' ∈ dl, ∀ t ∈ tb d', d' < t.sell_date) →
    (∀ day rest', dl = day :: rest' → ∃ c, m day = some c) →
    d ∈ dl →
    ∃ c, dpScan c0 tb prev dl m d = some c ∧
      ∀ d2 ∈ dl, d ≤ d2 →
        ∃ v2, dpScan c0 tb prev dl m d2 = some v2 ∧ c ≤ v2 := by
  intro dl
  induction dl with
  | nil => intro prev m d _ _ _ hd; simp at hd
  | cons day rest ih =>
    intro prev m d hsort htr hhead hd
    obtain ⟨c, hc⟩ := hhead day rest rfl
    rcases List.mem_cons.mp hd with rfl | hdrest
    · obtain ⟨h1, h2⟩ := dpScan_head_props c0 tb rest d prev m c hsort htr hc
      exact ⟨c, h1, fun d2 hd2 _ => h2 d2 hd2⟩
    · rcases rest with _ | ⟨nd, rest2⟩
      · simp at hdrest
      rw [dpScan]
      obtain ⟨w0, hw0, -⟩ := dpStep_next c0 tb prev day nd rest2 m
      have hsort' : List.Sorted (· < ·) (nd :: rest2) :=
        (List.sorted_cons.mp hsort).2
      have htr' : ∀ d' ∈ nd :: rest2, ∀ t ∈ tb d', d' < t.sell_date :=
        fun d' hd' => htr d' (List.mem_cons_of_mem _ hd')
      have hhead' : ∀ day' rest'', nd :: rest2 = day' :: rest'' →
          ∃ c', dpStep c0 tb prev day (nd :: rest2) m day' = some c' := by
        intro day' rest'' heq
        cases heq
        exact ⟨w0, hw0⟩
      obtain ⟨c', hc', hall⟩ := ih (some day)
        (dpStep c0 tb prev day (nd :: rest2) m) d hsort' htr' hhead' hdrest
      refine ⟨c', hc', ?_⟩
      intro d2 hd2 hled
      rcases List.mem_cons.mp hd2 with rfl | hd2r
      · have hlt := (List.sorted_cons.mp hsort).1 d hdrest
        exact absurd hled (not_le.mpr hlt)
      · exact hall d2 hd2r hled

lemma upMax_bound {B : ℚ} (m : Table) (k0 : ℕ) (v0 : ℚ)
    (hm : ∀ k v, m k = some v → v ≤ B) (hv : v0 ≤ B) :
    ∀ k v, upMax m k0 v0 k = some v → v ≤ B := by
  intro k v h
  unfold upMax at h
  rcases hmk : m k0 with _ | old <;> rw [hmk] at h <;> simp only [] at h
  · by_cases hk : k = k0
    · subst hk
      rw [tset_self] at h
      exact (Option.some.inj h) ▸ hv
    · rw [tset_other _ _ _ _ hk] at h
      exact hm k v h
  · split_ifs at h with hgt
    · by_cases hk : k = k0
      · subst hk
        rw [tset_self] at h
        exact (Option.some.inj h) ▸ hv
      · rw [tset_other _ _ _ _ hk] at h
        exact hm k v h
    · exact hm k v h

lemma dpScan_upper (c0 : ℚ) (tb : ℕ → List Trade) (htb : ∀ d, tb d = []) :
    ∀ (dl : List ℕ) (prev : Option ℕ) (m : Table),
    (∀ k v, m k = some v → v ≤ c0) →
    ∀ k v, dpScan c0 tb prev dl m k = some v → v ≤ c0 := by
  intro dl
  induction dl with
  | nil => intro prev m hb k v h; exact hb k v h
  | cons day rest ih =>
    intro prev m hb k v h
    rw [dpScan] at h
    refine ih _ _ ?_ k v h
    have hc : dpRead c0 m prev day ≤ c0 := by
      unfold dpRead
      rcases hmd : m day with _ | w <;> simp only []
      · unfold seedVal
        rcases prev with _ | p <;> simp only []
        · exact le_refl c0
        · rcases hmp : m p with _ | wp <;> simp only []
          · exact le_refl c0
          · exact hb p wp hmp
      · exact hb day w hmd
    have hm1 : ∀ k' v', (match m day with
        | some _ => m
        | none => tset m day (dpRead c0 m prev day)) k' = some v' → v' ≤ c0 := by
      rcases hmd : m day with _ | w <;> simp only []
      · intro k' v' h'
        by_cases hk : k' = day
        · subst hk
          rw [tset_self] at h'
          exact (Option.some.inj h') ▸ hc
        · rw [tset_other _ _ _ _ hk] at h'
          exact hb k' v' h'
      · exact hb
    intro k' v' h'
    revert h'
    unfold dpStep
    rw [htb day]
    simp only [relaxAll, List.foldl_nil]
    rcases rest with _ | ⟨nd, rest2⟩ <;> simp only []
    · exact hm1 k' v'
    · exact fun h' => upMax_bound _ nd _ hm1 hc k' v' h'

lemma sortedDays_sorted (s : Series) (h : (s.map (fun p => p.1)).Nodup) :
    List.Pairwise (· < ·) (sortedDays s) := by
  have hperm : (sortedDays s).Perm (s.map (fun p => p.1)) :=
    List.mergeSort_perm _ _
  have hnd : (sortedDays s).Nodup := hperm.nodup_iff.mpr h
  have hle : List.Pairwise (fun a b : ℕ => a ≤ b) (sortedDays s) := by
    have := @List.sorted_mergeSort ℕ
      (fun a b : ℕ => decide (a ≤ b))
      (fun a b c hab hbc => by
        simp only [decide_eq_true_eq] at hab hbc ⊢
        omega)
      (fun a b => by
        simp only [Bool.or_eq_true, decide_eq_true_eq]
        omega)
      (s.map (fun p => p.1))
    exact this.imp (fun hab => by simpa using hab)
  exact (hle.and hnd).imp (fun hab => lt_of_le_of_ne hab.1 hab.2)

lemma sortedDays_mem (s : Series) (d : ℕ) :
    d ∈ sortedDays s ↔ d ∈ s.map (fun p => p.1) :=
  (List.mergeSort_perm _ _).mem_iff

lemma buildTradesAsset_mem (a : AssetSeries)
    (hk : (a.series.map (fun p => p.1)).Nodup) (t : Trade)
    (ht : t ∈ buildTradesAsset a) :
    0 < t.buy_price ∧ t.buy_price < t.sell_price ∧ t.buy_date < t.sell_date ∧
      t.asset_id = a.asset_id ∧
      slookup a.series t.buy_date = some t.buy_price ∧
      slookup a.series t.sell_date = some t.sell_price := by
  unfold buildTradesAsset at ht
  obtain ⟨p, hp, hf⟩ := List.mem_filterMap.mp ht
  have hlt : p.1 < p.2 :=
    listPairs_rel (· < ·) (sortedDays a.series) (sortedDays_sorted a.series hk) p hp
  rcases hd : slookup a.series p.1 with _ | bp <;> rw [hd] at hf
  · rcases hn : slookup a.series p.2 with _ | sp <;> rw [hn] at hf <;>
      simp only [] at hf <;> exact Option.noConfusion hf
  · rcases hn : slookup a.series p.2 with _ | sp <;> rw [hn] at hf <;>
      simp only [] at hf
    · exact Option.noConfusion hf
    · by_cases h1 : bp ≤ 0
      · rw [if_pos h1] at hf
        exact Option.noConfusion hf
      · rw [if_neg h1] at hf
        by_cases h2 : sp ≤ bp
        · rw [if_pos h2] at hf
          exact Option.noConfusion hf
        · rw [if_neg h2] at hf
          have := (Option.some.inj hf).symm
          subst this
          exact ⟨not_le.mp h1, not_le.mp h2, hlt, rfl, hd, hn⟩

lemma buildTradesAsset_of_pair (a : AssetSeries)
    (hk : (a.series.map (fun p => p.1)).Nodup)
    (d nd : ℕ) (bp sp : ℚ) (hd : slookup a.series d = some bp)
    (hn : slookup a.series nd = some sp) (hdn : d < nd)
    (hbp : 0 < bp) (hsp : bp < sp) :
    ({ asset_id := a.asset_id, name := a.name, type_name := a.type_name,
       buy_date := d, sell_date := nd, buy_price := bp,
       sell_price := sp } : Trade) ∈ buildTradesAsset a := by
  unfold buildTradesAsset
  apply List.mem_filterMap.mpr
  refine ⟨(d, nd), ?_, ?_⟩
  · exact listPairs_of_mem_sorted (sortedDays a.series)
      (sortedDays_sorted a.series hk) d nd
      ((sortedDays_mem a.series d).mpr (slookup_some_mem _ _ _ hd))
      ((sortedDays_mem a.series nd).mpr (slookup_some_mem _ _ _ hn))
      hdn
  · dsimp only
    rw [hd, hn]
    dsimp only
    rw [if_neg (not_le.mpr hbp), if_neg (not_le.mpr hsp)]

lemma build_trades_mem (sm : List AssetSeries)
    (hk : ∀ a ∈ sm, (a.series.map (fun p => p.1)).Nodup) (t : Trade)
    (ht : t ∈ build_trades sm) :
    0 < t.buy_price ∧ t.buy_price < t.sell_price ∧ t.buy_date < t.sell_date := by
  unfold build_trades at ht
  obtain ⟨a, ha, hta⟩ := List.mem_flatMap.mp ht
  have := buildTradesAsset_mem a (hk a ha) t hta
  exact ⟨this.1, this.2.1, this.2.2.1⟩

lemma tradesByBuy_iff (trades : List Trade) (d : ℕ) (t : Trade) :
    t ∈ tradesByBuy trades d ↔ t ∈ trades ∧ t.buy_date = d := by
  unfold tradesByBuy
  rw [List.mem_filter]
  simp

lemma build_trades_of_pair (sm : List AssetSeries) (a : AssetSeries)
    (ha : a ∈ sm) (hk : (a.series.map (fun p => p.1)).Nodup)
    (d nd : ℕ) (bp sp : ℚ) (hd : slookup a.series d = some bp)
    (hn : slookup a.series nd = some sp) (hdn : d < nd)
    (hbp : 0 < bp) (hsp : bp < sp) :
    ∃ t ∈ tradesByBuy (build_trades sm) d,
      t.sell_date = nd ∧ t.buy_price = bp ∧ t.sell_price = sp := by
  refine ⟨{ asset_id := a.asset_id, name := a.name, type_name := a.type_name,
            buy_date := d, sell_date := nd, buy_price := bp, sell_price := sp },
    ?_, rfl, rfl, rfl⟩
  apply (tradesByBuy_iff _ _ _).mpr
  refine ⟨?_, rfl⟩
  unfold build_trades
  exact List.mem_flatMap.mpr
    ⟨a, ha, buildTradesAsset_of_pair a hk d nd bp sp hd hn hdn hbp hsp⟩

end Gantt

/-! ## The simulator is dominated by the dynamic program -/

/-- The price map the strategy simulator reads off the optimizer's asset
series: the same per-asset date-to-price data, keyed by asset id. -/
def priceMapOf (sm : List Gantt.AssetSeries) : Strategy.PriceMap :=
  sm.map (fun a => (a.asset_id, a.series))

lemma allocate_empty (strategy_name : String)
    (hname : strategy_name ∈ (["all_in", "equal_split", "greedy_one_unit"] : List String))
    (capital : ℚ) :
    Strategy.allocate strategy_name [] capital = some ([], capital) := by
  simp only [List.mem_cons, List.mem_singleton, List.not_mem_nil, or_false] at hname
  rcases hname with h | h | h <;> subst h <;> rfl

lemma simDp_main (tb : ℕ → List Gantt.Trade)
    (opps : ℕ → List Strategy.Opportunity) (strategy_name : String)
    (hname : strategy_name ∈ (["all_in", "equal_split", "greedy_one_unit"] : List String))
    (c0 : ℚ) :
    ∀ (rest : List ℕ) (day : ℕ) (prev : Option ℕ) (m : Gantt.Table)
      (cap c : ℚ) (summs : List Strategy.DailySummary)
      (ts : List Strategy.Trade)
      (res : List Strategy.DailySummary × List Strategy.Trade × ℚ),
      List.Sorted (· < ·) (day :: rest) →
      (∀ d ∈ day :: rest, ∀ t ∈ tb d, d < t.sell_date) →
      (∀ p ∈ (day :: rest).zip rest, ∀ o ∈ opps p.1,
        0 < o.buy_price ∧ o.buy_price < o.sell_price ∧
        o.gain_pct = (o.sell_price - o.buy_price) / o.buy_price ∧
        ∃ t ∈ tb p.1, t.sell_date = p.2 ∧ t.buy_price = o.buy_price ∧
          t.sell_price = o.sell_price) →
      m day = some c → 0 ≤ cap → cap ≤ c →
      Strategy.simGo opps strategy_name (day :: rest).dropLast cap summs ts
        = some res →
      ∃ v, Gantt.dpScan c0 tb prev (day :: rest) m
          ((day :: rest).getLast (List.cons_ne_nil day rest)) = some v ∧
        res.2.2 ≤ v := by
  intro rest
  induction rest with
  | nil =>
    intro day prev m cap c summs ts res hsort htr hopp hm hcap hcapc hsim
    rw [List.dropLast_single, Strategy.simGo] at hsim
    have hres := Option.some.inj hsim
    have hprops := Gantt.dpScan_head_props c0 tb [] day prev m c hsort htr hm
    refine ⟨c, ?_, ?_⟩
    · rw [List.getLast_singleton]
      exact hprops.1
    · rw [← hres]
      exact hcapc
  | cons nd rest2 ih =>
    intro day prev m cap c summs ts res hsort htr hopp hm hcap hcapc hsim
    have hdrop : (day :: nd :: rest2).dropLast = day :: (nd :: rest2).dropLast := by
      rfl
    rw [hdrop, Strategy.simGo] at hsim
    obtain ⟨⟨dt, cl⟩, halloc⟩ : ∃ pr,
        Strategy.allocate strategy_name (opps day) cap = some pr := by
      rcases Strategy.allocate_known strategy_name hname (opps day) cap
        with h | h | h <;> exact ⟨_, h⟩
    rw [halloc] at hsim
    simp only [] at hsim
    rw [Gantt.dpScan]
    rw [List.getLast_cons (List.cons_ne_nil nd rest2)]
    have hread := Gantt.dpRead_eq c0 m prev day c hm
    obtain ⟨w0, hw0, hcw0⟩ := Gantt.dpStep_next c0 tb prev day nd rest2 m
    rw [hread] at hcw0
    have hsort' : List.Sorted (· < ·) (nd :: rest2) := (List.sorted_cons.mp hsort).2
    have htr' : ∀ d ∈ nd :: rest2, ∀ t ∈ tb d, d < t.sell_date :=
      fun d hd => htr d (List.mem_cons_of_mem _ hd)
    have hopp' : ∀ p ∈ (nd :: rest2).zip rest2, ∀ o ∈ opps p.1,
        0 < o.buy_price ∧ o.buy_price < o.sell_price ∧
        o.gain_pct = (o.sell_price - o.buy_price) / o.buy_price ∧
        ∃ t ∈ tb p.1, t.sell_date = p.2 ∧ t.buy_price = o.buy_price ∧
          t.sell_price = o.sell_price := by
      intro p hp
      apply hopp p
      rw [List.zip_cons_cons]
      exact List.mem_cons_of_mem _ hp
    have hoppday : ∀ o ∈ opps day,
        0 < o.buy_price ∧ o.buy_price < o.sell_price ∧
        o.gain_pct = (o.sell_price - o.buy_price) / o.buy_price ∧
        ∃ t ∈ tb day, t.sell_date = nd ∧ t.buy_price = o.buy_price ∧
          t.sell_price = o.sell_price := by
      intro o ho
      have := hopp (day, nd) (by
        rw [List.zip_cons_cons]
        exact List.mem_cons_self _ _) o ho
      exact this
    have hnn := Strategy.allocate_nonneg strategy_name hname (opps day) cap hcap
      (fun o ho => ⟨(hoppday o ho).1, (hoppday o ho).2.1⟩) dt cl halloc
    have hproceeds : 0 ≤ (dt.map (fun t => t.capital_end)).sum := by
      apply List.sum_nonneg
      intro x hx
      obtain ⟨t, ht, rfl⟩ := List.mem_map.mp hx
      exact (hnn.2 t ht).2
    have hcapN : 0 ≤ cl + (dt.map (fun t => t.capital_end)).sum :=
      add_nonneg hnn.1 hproceeds
    rcases hod : opps day with _ | ⟨o₀, os⟩
    · -- no opportunities: the allocator is a no-op, the DP carries forward
      rw [hod] at halloc
      rw [allocate_empty strategy_name hname cap] at halloc
      have hp := Option.some.inj halloc
      have h1 := congrArg Prod.fst hp
      have h2 := congrArg Prod.snd hp
      dsimp only [Prod.fst, Prod.snd] at h1 h2
      subst h1
      subst h2
      have := ih nd (some day) (Gantt.dpStep c0 tb prev day (nd :: rest2) m)
        (cap + (([] : List Strategy.Trade).map (fun t => t.capital_end)).sum) w0
        (summs ++ [{ day := day
                     capital_start := cap
                     capital_end := cap + (([] : List Strategy.Trade).map
                       (fun t => t.capital_end)).sum
                     invested := (([] : List Strategy.Trade).map
                       (fun t => t.capital_start)).sum
                     cash_left := cap
                     trade_count := ([] : List Strategy.Trade).length }])
        (ts ++ []) res hsort' htr' hopp' hw0
        (by simpa using hcap)
        (by simpa using le_trans hcapc hcw0)
        hsim
      exact this
    · -- take the best opportunity's trade edge in the DP
      have hoppday' := hod ▸ hoppday
      have hbo := hoppday' _ (Strategy.maxByGainPct_mem os o₀)
      obtain ⟨hbp, hsp, hgp, t', ht', hsell', hbuyp', hsellp'⟩ := hbo
      obtain ⟨w1, hw1, hle1⟩ := Gantt.dpStep_trade c0 tb prev day (nd :: rest2) m t' ht'
      rw [hsell'] at hw1
      rw [hread, hbuyp', hsellp'] at hle1
      have hbound := Strategy.allocate_bound strategy_name hname o₀ os cap hcap
        (fun o ho => ⟨(hoppday' o ho).1, (hoppday' o ho).2.1, (hoppday' o ho).2.2.1⟩)
        dt cl (hod ▸ halloc)
      have hchain : cl + (dt.map (fun t => t.capital_end)).sum ≤ w1 := by
        have hF0 : (0:ℚ) ≤ (Strategy.maxByGainPct o₀ os).sell_price
            / (Strategy.maxByGainPct o₀ os).buy_price :=
          div_nonneg (le_of_lt (lt_trans hbp hsp)) (le_of_lt hbp)
        have h1 : cap * ((Strategy.maxByGainPct o₀ os).sell_price
              / (Strategy.maxByGainPct o₀ os).buy_price)
            ≤ c * ((Strategy.maxByGainPct o₀ os).sell_price
              / (Strategy.maxByGainPct o₀ os).buy_price) :=
          mul_le_mul_of_nonneg_right hcapc hF0
        have h2 : c * ((Strategy.maxByGainPct o₀ os).sell_price
              / (Strategy.maxByGainPct o₀ os).buy_price)
            = c / (Strategy.maxByGainPct o₀ os).buy_price
              * (Strategy.maxByGainPct o₀ os).sell_price := by
          rw [div_mul_eq_mul_div, mul_div_assoc]
        calc cl + (dt.map (fun t => t.capital_end)).sum
            ≤ cap * ((Strategy.maxByGainPct o₀ os).sell_price
              / (Strategy.maxByGainPct o₀ os).buy_price) := hbound
          _ ≤ c * ((Strategy.maxByGainPct o₀ os).sell_price
              / (Strategy.maxByGainPct o₀ os).buy_price) := h1
          _ = c / (Strategy.maxByGainPct o₀ os).buy_price
              * (Strategy.maxByGainPct o₀ os).sell_price := h2
          _ ≤ w1 := hle1
      exact ih nd (some day) (Gantt.dpStep c0 tb prev day (nd :: rest2) m)
        (cl + (dt.map (fun t => t.capital_end)).sum) w1
        (summs ++ [{ day := day
                     capital_start := cap
                     capital_end := cl + (dt.map (fun t => t.capital_end)).sum
                     invested := (dt.map (fun t => t.capital_start)).sum
                     cash_left := cl
                     trade_count := dt.length }])
        (ts ++ dt) res hsort' htr' hopp' hw1 hcapN hchain hsim

/-! ## Helper lemmas on the best-trade scan -/

lemma btLoop_cons (st : BTState) (x : DailyValue) (rest : List DailyValue) :
    btLoop st (x :: rest) = btLoop (btLoop st [x]) rest := rfl

lemma btLoop_single_min (st : BTState) (x : DailyValue) :
    (btLoop st [x]).min_value
      = if x.value < st.min_value then x.value else st.min_value := by
  simp only [btLoop]
  by_cases h1 : x.value - st.min_value > st.best_gain <;> simp [h1] <;>
    split_ifs <;> rfl

lemma btLoop_single_best (st : BTState) (x : DailyValue) :
    (btLoop st [x]).best_gain
      = if x.value - st.min_value > st.best_gain then x.value - st.min_value
        else st.best_gain := by
  simp only [btLoop]
  by_cases h1 : x.value - st.min_value > st.best_gain <;> simp [h1] <;>
    split_ifs <;> rfl

lemma btLoop_single_min_le (st : BTState) (x : DailyValue) :
    (btLoop st [x]).min_value ≤ st.min_value := by
  rw [btLoop_single_min]; split_ifs with h <;> linarith

lemma btLoop_single_min_le_x (st : BTState) (x : DailyValue) :
    (btLoop st [x]).min_value ≤ x.value := by
  rw [btLoop_single_min]; split_ifs with h <;> linarith

lemma btLoop_single_best_le (st : BTState) (x : DailyValue) :
    st.best_gain ≤ (btLoop st [x]).best_gain := by
  rw [btLoop_single_best]; split_ifs with h <;> linarith

lemma btLoop_single_best_ge_x (st : BTState) (x : DailyValue) :
    x.value - st.min_value ≤ (btLoop st [x]).best_gain := by
  rw [btLoop_single_best]; split_ifs with h <;> linarith

lemma btLoop_min_le (l : List DailyValue) : ∀ st : BTState,
    (btLoop st l).min_value ≤ st.min_value := by
  induction l with
  | nil => intro st; simp [btLoop]
  | cons x rest ih =>
    intro st
    rw [btLoop_cons]
    exact le_trans (ih _) (btLoop_single_min_le st x)

lemma btLoop_min_le_mem (l : List DailyValue) : ∀ st : BTState, ∀ v ∈ l,
    (btLoop st l).min_value ≤ v.value := by
  induction l with
  | nil => intro st v hv; simp at hv
  | cons x rest ih =>
    intro st v hv
    rw [btLoop_cons]
    rcases List.mem_cons.mp hv with rfl | h
    · exact le_trans (btLoop_min_le _ _) (btLoop_single_min_le_x st v)
    · exact ih _ v h

lemma btLoop_best_mono (l : List DailyValue) : ∀ st : BTState,
    st.best_gain ≤ (btLoop st l).best_gain := by
  induction l with
  | nil => intro st; simp [btLoop]
  | cons x rest ih =>
    intro st
    rw [btLoop_cons]
    exact le_trans (btLoop_single_best_le st x) (ih _)

lemma btLoop_ge_mem (l : List DailyValue) : ∀ st : BTState, ∀ v ∈ l,
    v.value - st.min_value ≤ (btLoop st l).best_gain := by
  induction l with
  | nil => intro st v hv; simp at hv
  | cons x rest ih =>
    intro st v hv
    rw [btLoop_cons]
    rcases List.mem_cons.mp hv with rfl | h
    · exact le_trans (btLoop_single_best_ge_x st v) (btLoop_best_mono _ _)
    · have h1 := ih (btLoop st [x]) v h
      have h2 := btLoop_single_min_le st x
      linarith

lemma btLoop_ge_pairs (l : List DailyValue) : ∀ st : BTState,
    ∀ p ∈ listPairs l, p.2.value - p.1.value ≤ (btLoop st l).best_gain := by
  induction l with
  | nil => intro st p hp; simp [listPairs] at hp
  | cons x rest ih =>
    intro st p hp
    rw [btLoop_cons]
    simp only [listPairs, List.mem_append, List.mem_map] at hp
    rcases hp with ⟨y, hy, rfl⟩ | hp
    · have h1 := btLoop_ge_mem rest (btLoop st [x]) y hy
      have h2 := btLoop_single_min_le_x st x
      dsimp only
      linarith
    · exact ih _ p hp

/-! ## Theorems for the claims -/

/-- C10: for every single-element opportunity list and every capital,
`allocate_equal_split` returns exactly the same result as `allocate_all_in`:
one trade with `capital_start = c`, `units = c / buy_price`,
`capital_end = units * sell_price`, and leftover `0`. -/
theorem c10_equal_split_singleton (o : Strategy.Opportunity) (c : ℚ) :
    Strategy.allocate_equal_split [o] c = Strategy.allocate_all_in [o] c ∧
    Strategy.allocate_all_in [o] c =
      ([{ asset_id := o.asset_id
          asset_type := ""
          buy_date := o.buy_date
          sell_date := o.sell_date
          buy_price := o.buy_price
          sell_price := o.sell_price
          units := c / o.buy_price
          capital_start := c
          capital_end := c / o.buy_price * o.sell_price }], 0) := by
  constructor
  · simp [Strategy.allocate_equal_split, Strategy.allocate_all_in, Strategy.maxByGainPct]
  · rfl

/-- C3: for every policy name, opportunity list and capital, the sum of
`capital_start` over the day's returned trades plus the returned leftover cash
equals the capital passed in exactly, and (for non-negative capital) no policy
allocates more than the available capital. -/
theorem c3_capital_conservation (strategy_name : String)
    (hname : strategy_name ∈ (["all_in", "equal_split", "greedy_one_unit"] : List String))
    (opportunities : List Strategy.Opportunity) (capital : ℚ)
    (day_trades : List Strategy.Trade) (cash_left : ℚ)
    (halloc : Strategy.allocate strategy_name opportunities capital
      = some (day_trades, cash_left)) :
    (day_trades.map (fun t => t.capital_start)).sum + cash_left = capital ∧
    (0 ≤ capital → (day_trades.map (fun t => t.capital_start)).sum ≤ capital) := by
  rcases Strategy.allocate_known strategy_name hname opportunities capital with h | h | h <;>
    rw [h] at halloc <;>
    have hp := Option.some.inj halloc <;>
    have h1 := congrArg Prod.fst hp <;>
    have h2 := congrArg Prod.snd hp <;>
    dsimp only [Prod.fst, Prod.snd] at h1 h2 <;>
    subst h1 <;> subst h2
  · refine ⟨Strategy.allocate_all_in_conserve _ _, fun hc => ?_⟩
    have hcon := Strategy.allocate_all_in_conserve opportunities capital
    have hnn := Strategy.allocate_all_in_left_nonneg opportunities capital hc
    linarith
  · refine ⟨Strategy.allocate_equal_split_conserve _ _, fun hc => ?_⟩
    have hcon := Strategy.allocate_equal_split_conserve opportunities capital
    have hnn := Strategy.allocate_equal_split_left_nonneg opportunities capital hc
    linarith
  · refine ⟨Strategy.allocate_greedy_conserve _ _, fun hc => ?_⟩
    have hcon := Strategy.allocate_greedy_conserve opportunities capital
    have hnn := Strategy.allocate_greedy_left_nonneg opportunities capital hc
    linarith

/-- Witness for C3 at a concrete input: the greedy policy on an empty
opportunity list with capital 7 conserves capital. -/
theorem c3_capital_conservation_witness :
    (([] : List Strategy.Trade).map (fun t => t.capital_start)).sum + (7:ℚ) = 7 ∧
    (0 ≤ (7:ℚ) → (([] : List Strategy.Trade).map (fun t => t.capital_start)).sum ≤ 7) :=
  c3_capital_conservation "greedy_one_unit" (by simp) [] 7 [] 7 rfl

/-- C8: the derived `gain_pct` of both `Trade` types is a guarded division:
it is the quotient only when the divisor (`capital_start`, resp. `buy_price`)
is positive, and the sentinel `0.0` when the divisor is non-positive, so no
division by a non-positive divisor decides an output. -/
theorem c8_gain_pct_guarded (t : Strategy.Trade) (g : Gantt.Trade) :
    (t.capital_start ≤ 0 → t.gain_pct = 0) ∧
    (0 < t.capital_start →
      t.gain_pct = (t.capital_end - t.capital_start) / t.capital_start) ∧
    (g.buy_price ≤ 0 → g.gain_pct = 0) ∧
    (0 < g.buy_price → g.gain_pct = (g.sell_price - g.buy_price) / g.buy_price) := by
  refine ⟨fun h => ?_, fun h => ?_, fun h => ?_, fun h => ?_⟩
  · simp [Strategy.Trade.gain_pct, if_pos h]
  · simp [Strategy.Trade.gain_pct, Strategy.Trade.gain, not_le.mpr h]
  · simp [Gantt.Trade.gain_pct, if_pos h]
  · simp [Gantt.Trade.gain_pct, not_le.mpr h]

/-- C1: `best_trade` returns a tuple whose gain is greater than or equal to
the gain of every ordered pair of days in the series, and on the series
day0:10, day1:15, day2:8, day3:20 it returns buy day2 at 8, sell day3 at 20
with gain 12 and gain_pct 1.5, not the first local pair day0/day1. -/
theorem c1_best_trade_optimal :
    (∀ (values : List DailyValue) (r : BestTradeResult),
      best_trade values = some r →
      ∀ p ∈ listPairs values, p.2.value - p.1.value ≤ r.gain) ∧
    best_trade [⟨0, 10⟩, ⟨1, 15⟩, ⟨2, 8⟩, ⟨3, 20⟩]
      = some ⟨2, 8, 3, 20, 12, some (3/2)⟩ := by
  constructor
  · intro values r h p hp
    match values with
    | [] => exact Option.noConfusion h
    | [_] => exact Option.noConfusion h
    | v0 :: v1 :: rest =>
      simp only [best_trade, Option.some.injEq] at h
      subst h
      rw [listPairs] at hp
      rcases List.mem_append.mp hp with hp1 | hp1
      · obtain ⟨y, hy, rfl⟩ := List.mem_map.mp hp1
        have h1 := btLoop_ge_mem (v1 :: rest)
          { min_day := v0.day, min_value := v0.value,
            best_gain := v1.value - v0.value,
            best_buy_day := v0.day, best_buy_value := v0.value,
            best_sell_day := v1.day, best_sell_value := v1.value } y hy
        simpa using h1
      · have h1 := btLoop_ge_pairs (v1 :: rest)
          { min_day := v0.day, min_value := v0.value,
            best_gain := v1.value - v0.value,
            best_buy_day := v0.day, best_buy_value := v0.value,
            best_sell_day := v1.day, best_sell_value := v1.value } p hp1
        simpa using h1
  · norm_num [best_trade, btLoop]

/-- C7 counterexample: with `min_gain = 0` and no `min_gain_pct`, the pair
day0 at value 0, day1 at value 5 is yielded even though its buy value is 0,
so a non-positive buy value IS retained, contradicting the claim. -/
theorem c7_counterexample_nonpositive_buy :
    iter_profitable_trades [⟨0, 0⟩, ⟨1, 5⟩] 0 none = [⟨0, 0, 1, 5, 5, none⟩] ∧
    ∃ e ∈ iter_profitable_trades [⟨0, 0⟩, ⟨1, 5⟩] 0 none, e.buy_value ≤ 0 := by
  have h : iter_profitable_trades [⟨0, 0⟩, ⟨1, 5⟩] 0 none
      = [⟨0, 0, 1, 5, 5, none⟩] := by
    norm_num [iter_profitable_trades, listPairs, profitFilter,
      List.filterMap_cons]
  refine ⟨h, ⟨0, 0, 1, 5, 5, none⟩, by rw [h]; exact List.mem_singleton_self _, le_refl 0⟩

lemma profitFilter_eq_some_iff (mg : ℚ) (mgp : Option ℚ)
    (p : DailyValue × DailyValue) (e : ProfitTrade) :
    profitFilter mg mgp p = some e ↔
      mg < p.2.value - p.1.value ∧
      (∀ m, mgp = some m →
        0 < p.1.value ∧ m ≤ (p.2.value - p.1.value) / p.1.value) ∧
      e = ⟨p.1.day, p.1.value, p.2.day, p.2.value, p.2.value - p.1.value,
           if 0 < p.1.value then some ((p.2.value - p.1.value) / p.1.value)
           else none⟩ := by
  rcases mgp with _ | m
  · by_cases h1 : p.2.value - p.1.value ≤ mg
    · simp only [profitFilter, if_pos h1]
      constructor
      · intro hc; exact Option.noConfusion hc
      · rintro ⟨hgt, -, -⟩; exact absurd hgt (not_lt.mpr h1)
    · by_cases h2 : p.1.value > 0
      · simp only [profitFilter, if_neg h1, if_pos h2, Option.some.injEq]
        constructor
        · intro he
          exact ⟨not_le.mp h1, by rintro m hm; exact Option.noConfusion hm,
            he.symm⟩
        · rintro ⟨-, -, he⟩
          exact he.symm
      · simp only [profitFilter, if_neg h1, if_neg h2, Option.some.injEq]
        constructor
        · intro he
          exact ⟨not_le.mp h1, by rintro m hm; exact Option.noConfusion hm,
            he.symm⟩
        · rintro ⟨-, -, he⟩
          exact he.symm
  · by_cases h1 : p.2.value - p.1.value ≤ mg
    · simp only [profitFilter, if_pos h1]
      constructor
      · intro hc; exact Option.noConfusion hc
      · rintro ⟨hgt, -, -⟩; exact absurd hgt (not_lt.mpr h1)
    · by_cases h2 : p.1.value > 0
      · by_cases h3 : (p.2.value - p.1.value) / p.1.value < m
        · simp only [profitFilter, if_neg h1, if_pos h2, if_pos h3]
          constructor
          · intro hc; exact Option.noConfusion hc
          · rintro ⟨-, hall, -⟩
            have := (hall m rfl).2
            exact absurd this (not_le.mpr h3)
        · simp only [profitFilter, if_neg h1, if_pos h2, if_neg h3,
            Option.some.injEq]
          constructor
          · intro he
            refine ⟨not_le.mp h1, ?_, he.symm⟩
            rintro m' hm'
            cases hm'
            exact ⟨h2, not_lt.mp h3⟩
          · rintro ⟨-, -, he⟩
            exact he.symm
      · simp only [profitFilter, if_neg h1, if_neg h2]
        constructor
        · intro hc; exact Option.noConfusion hc
        · rintro ⟨-, hall, -⟩
          exact absurd (hall m rfl).1 h2

/-- C7 amended: `iter_profitable_trades` yields exactly the ordered pairs of
recorded days whose gain strictly exceeds `min_gain` and which, when
`min_gain_pct` is supplied, have a positive buy value and a gain_pct at least
`min_gain_pct`; a pair with a non-positive buy value IS yielded (with
`gain_pct = None`) when `min_gain_pct` is not supplied, and is excluded only
when `min_gain_pct` is supplied. -/
theorem c7_iter_profitable_trades_exactly (values : List DailyValue)
    (min_gain : ℚ) (min_gain_pct : Option ℚ) (e : ProfitTrade) :
    (e ∈ iter_profitable_trades values min_gain min_gain_pct ↔
      ∃ p ∈ listPairs values,
        min_gain < p.2.value - p.1.value ∧
        (∀ m, min_gain_pct = some m →
          0 < p.1.value ∧ m ≤ (p.2.value - p.1.value) / p.1.value) ∧
        e = ⟨p.1.day, p.1.value, p.2.day, p.2.value, p.2.value - p.1.value,
             if 0 < p.1.value then some ((p.2.value - p.1.value) / p.1.value)
             else none⟩) ∧
    (∀ m, min_gain_pct = some m →
      e ∈ iter_profitable_trades values min_gain min_gain_pct →
      0 < e.buy_value) := by
  constructor
  · rw [iter_profitable_trades, List.mem_filterMap]
    constructor
    · rintro ⟨p, hp, hf⟩
      exact ⟨p, hp, (profitFilter_eq_some_iff _ _ _ _).mp hf⟩
    · rintro ⟨p, hp, hcond⟩
      exact ⟨p, hp, (profitFilter_eq_some_iff _ _ _ _).mpr hcond⟩
  · rintro m rfl hmem
    rw [iter_profitable_trades, List.mem_filterMap] at hmem
    obtain ⟨p, -, hf⟩ := hmem
    obtain ⟨-, hall, he⟩ := (profitFilter_eq_some_iff _ _ _ _).mp hf
    have hpos := (hall m rfl).1
    rw [he]
    exact hpos

/-- C4: for every price map and every adjacent pair of dates,
`compute_best_daily_choices` records a choice that dominates every asset
priced on both days with a positive buy price; a chosen asset is such an
asset, with factor `sell/buy` strictly above the baseline 1.0; when no
qualifying factor exceeds 1.0 the choice is asset = none with factor 1.0
(hold cash).  On assets A: d0 10, d1 12 and B: d0 10, d1 9 the day-0 choice is
A with factor 1.2, and with both factors below 1.0 it is no-trade. -/
theorem c4_best_daily_choices :
    (∀ (dates : List ℕ) (prices : Strategy.PriceMap) (meta : String → String)
      (day next_day : ℕ), (day, next_day) ∈ dates.zip dates.tail →
      ∃ ch, (day, ch) ∈ Strategy.compute_best_daily_choices dates prices meta ∧
        (∀ e ∈ prices, ∀ bp sp, slookup e.2 day = some bp →
          slookup e.2 next_day = some sp → 0 < bp → sp / bp ≤ ch.factor) ∧
        (∀ aid, ch.asset_id = some aid →
          1 < ch.factor ∧
          ∃ e ∈ prices, e.1 = aid ∧ ∃ bp sp, slookup e.2 day = some bp ∧
            slookup e.2 next_day = some sp ∧ 0 < bp ∧ ch.factor = sp / bp ∧
            ch.buy_price = some bp ∧ ch.sell_price = some sp) ∧
        ((∀ e ∈ prices, ∀ bp sp, slookup e.2 day = some bp →
            slookup e.2 next_day = some sp → 0 < bp → sp / bp ≤ 1) →
          ch.asset_id = none ∧ ch.factor = 1)) ∧
    Strategy.compute_best_daily_choices [0, 1]
        [("A", [(0, 10), (1, 12)]), ("B", [(0, 10), (1, 9)])] (fun _ => "item")
      = [(0, ⟨0, some "A", some "item", some 10, some 12, 6/5⟩)] ∧
    Strategy.compute_best_daily_choices [0, 1]
        [("A", [(0, 10), (1, 9)]), ("B", [(0, 10), (1, 8)])] (fun _ => "item")
      = [(0, ⟨0, none, none, none, none, 1⟩)] := by
  refine ⟨?_, ?_, ?_⟩
  · intro dates prices meta day next_day hpair
    refine ⟨Strategy.bestChoiceFor prices meta day next_day, ?_, ?_, ?_, ?_⟩
    · exact List.mem_map.mpr ⟨(day, next_day), hpair, rfl⟩
    · intro e he bp sp hd hn hbp
      exact Strategy.bestFold_dominates day next_day prices _ e he bp sp hd hn hbp
    · intro aid haid
      have hsound := Strategy.bestFold_sound day next_day prices
        (1, none, none, none) [] (Or.inl rfl)
      rcases hsound with hinit | ⟨e, he, bp, sp, hd, hn, hbp, hgt, heq⟩
      · rw [Strategy.bestChoiceFor, hinit] at haid
        exact Option.noConfusion haid
      · rw [Strategy.bestChoiceFor, heq] at haid ⊢
        simp only [Option.some.injEq] at haid
        subst haid
        exact ⟨hgt, e, by simpa using he, rfl, bp, sp, hd, hn, hbp, rfl, rfl, rfl⟩
    · intro hall
      have hsound := Strategy.bestFold_sound day next_day prices
        (1, none, none, none) [] (Or.inl rfl)
      rcases hsound with hinit | ⟨e, he, bp, sp, hd, hn, hbp, hgt, heq⟩
      · rw [Strategy.bestChoiceFor, hinit]
        exact ⟨rfl, rfl⟩
      · exfalso
        have := hall e (by simpa using he) bp sp hd hn hbp
        linarith
  · have h1 : Strategy.bestStep 0 1 (1, none, none, none) ("A", [(0, 10), (1, 12)])
        = (6/5, some "A", some 10, some 12) := by
      norm_num [Strategy.bestStep, slookup]
    have h2 : Strategy.bestStep 0 1 (6/5, some "A", some 10, some 12)
        ("B", [(0, 10), (1, 9)]) = (6/5, some "A", some 10, some 12) := by
      norm_num [Strategy.bestStep, slookup]
    simp only [Strategy.compute_best_daily_choices, List.tail_cons,
      List.zip_cons_cons, List.zip_nil_right, List.map_cons, List.map_nil,
      Strategy.bestChoiceFor, List.foldl_cons, List.foldl_nil, h1, h2]
    rfl
  · have h1 : Strategy.bestStep 0 1 (1, none, none, none) ("A", [(0, 10), (1, 9)])
        = (1, none, none, none) := by
      norm_num [Strategy.bestStep, slookup]
    have h2 : Strategy.bestStep 0 1 (1, none, none, none) ("B", [(0, 10), (1, 8)])
        = (1, none, none, none) := by
      norm_num [Strategy.bestStep, slookup]
    simp only [Strategy.compute_best_daily_choices, List.tail_cons,
      List.zip_cons_cons, List.zip_nil_right, List.map_cons, List.map_nil,
      Strategy.bestChoiceFor, List.foldl_cons, List.foldl_nil, h1, h2]
    rfl

/-- C5: `allocate_greedy_one_unit` emits only whole-unit trades
(`units = 1`, `capital_start = buy_price`, `capital_end = sell_price`, each
from one of the day's opportunities), conserves cash exactly
(`sum of capital_start + leftover = capital`), and on capital 10 with
opportunities (buy 3, sell 5, gain_pct 0.67) and (buy 8, sell 9,
gain_pct 0.125) it buys only the first and returns leftover 7. -/
theorem c5_greedy_one_unit :
    (∀ (opportunities : List Strategy.Opportunity) (capital : ℚ),
      (∀ t ∈ (Strategy.allocate_greedy_one_unit opportunities capital).1,
        t.units = 1 ∧ t.capital_start = t.buy_price ∧
        t.capital_end = t.sell_price ∧
        ∃ o ∈ opportunities, t.buy_price = o.buy_price ∧
          t.sell_price = o.sell_price ∧ t.asset_id = o.asset_id) ∧
      ((Strategy.allocate_greedy_one_unit opportunities capital).1.map
          (fun t => t.capital_start)).sum
        + (Strategy.allocate_greedy_one_unit opportunities capital).2
        = capital) ∧
    Strategy.allocate_greedy_one_unit
        [⟨"X", 0, 1, 3, 5, 67/100⟩, ⟨"Y", 0, 1, 8, 9, 1/8⟩] 10
      = ([⟨"X", "", 0, 1, 3, 5, 1, 3, 5⟩], 7) := by
  constructor
  · intro opportunities capital
    constructor
    · intro t ht
      cases opportunities with
      | nil => simp [Strategy.allocate_greedy_one_unit] at ht
      | cons o rest =>
        rw [Strategy.allocate_greedy_one_unit] at ht
        rcases Strategy.greedyGo_mem_shape _ _ _ t ht with h | ⟨o', ho', rfl⟩
        · simp at h
        · have hmem : o' ∈ o :: rest :=
            (List.mergeSort_perm (o :: rest) _).mem_iff.mp ho'
          exact ⟨rfl, rfl, rfl, o', hmem, rfl, rfl, rfl⟩
    · exact Strategy.allocate_greedy_conserve opportunities capital
  · rw [Strategy.allocate_greedy_one_unit]
    rw [show ([⟨"X", 0, 1, 3, 5, 67/100⟩, ⟨"Y", 0, 1, 8, 9, 1/8⟩] :
        List Strategy.Opportunity).mergeSort
          (fun a b => decide (b.gain_pct ≤ a.gain_pct))
      = [⟨"X", 0, 1, 3, 5, 67/100⟩, ⟨"Y", 0, 1, 8, 9, 1/8⟩] from by
        simp [List.mergeSort, List.merge]
        norm_num]
    norm_num [Strategy.greedyGo]

/-- C6: a simulation run started with positive capital over opportunities
built by `build_opportunities` (which all have a positive buy price and a
strictly greater sell price) never produces a negative capital: the ending
capital, every day's `capital_start` and `capital_end`, and every Trade's
`capital_start` and `capital_end` are non-negative, under each of the three
allocation policies. -/
theorem c6_no_negative_capital (dates : List ℕ) (prices : Strategy.PriceMap)
    (strategy_name : String)
    (hname : strategy_name ∈ (["all_in", "equal_split", "greedy_one_unit"] : List String))
    (starting_capital : ℚ) (hc : 0 < starting_capital)
    (summaries : List Strategy.DailySummary) (trades : List Strategy.Trade)
    (ending : ℚ)
    (hsim : Strategy.simulate_daily_strategy dates
        (Strategy.build_opportunities dates prices) strategy_name starting_capital
      = some (summaries, trades, ending)) :
    0 ≤ ending ∧
    (∀ s ∈ summaries, 0 ≤ s.capital_start ∧ 0 ≤ s.capital_end) ∧
    (∀ t ∈ trades, 0 ≤ t.capital_start ∧ 0 ≤ t.capital_end) := by
  have hprops : ∀ d, ∀ o ∈ Strategy.build_opportunities dates prices d,
      0 < o.buy_price ∧ o.buy_price < o.sell_price := by
    intro d o ho
    have h := Strategy.build_opportunities_mem dates prices d o ho
    exact ⟨h.1, h.2.1⟩
  have := Strategy.simGo_nonneg (Strategy.build_opportunities dates prices)
    strategy_name hname hprops dates.dropLast starting_capital [] []
    (summaries, trades, ending) (le_of_lt hc) (by simp) (by simp) hsim
  exact this

/-- Witness for C6 at a concrete input: the one-day window with no price data
runs the all-in policy to completion and every capital is non-negative. -/
theorem c6_no_negative_capital_witness :
    (0:ℚ) ≤ 100 ∧
    (∀ s ∈ ([] : List Strategy.DailySummary),
      0 ≤ s.capital_start ∧ 0 ≤ s.capital_end) ∧
    (∀ t ∈ ([] : List Strategy.Trade),
      0 ≤ t.capital_start ∧ 0 ≤ t.capital_end) :=
  c6_no_negative_capital [0] [] "all_in" (by simp) 100 (by norm_num) [] [] 100 rfl

/-- C9: over a contiguous date range, the forward scan of `optimize_trades`
fed by `build_trades` leaves no date's `best_capital` entry unset: every date
of the range is defined in the final table, the final table is non-decreasing
along the date sequence, and the capital at the last date is at least the
starting capital, with equality when there is no trade edge at all. -/
theorem c9_dp_table (sm : List Gantt.AssetSeries)
    (hkeys : ∀ a ∈ sm, (a.series.map (fun p => p.1)).Nodup)
    (s n : ℕ) (starting_capital : ℚ) :
    (∀ d ∈ build_dates s (s + n),
      ∃ v, Gantt.optimize_table starting_capital (Gantt.build_trades sm)
        (build_dates s (s + n)) d = some v) ∧
    (∀ d1 d2, d1 ∈ build_dates s (s + n) → d2 ∈ build_dates s (s + n) →
      d1 ≤ d2 → ∀ v1 v2,
      Gantt.optimize_table starting_capital (Gantt.build_trades sm)
        (build_dates s (s + n)) d1 = some v1 →
      Gantt.optimize_table starting_capital (Gantt.build_trades sm)
        (build_dates s (s + n)) d2 = some v2 → v1 ≤ v2) ∧
    (∃ v, Gantt.optimize_table starting_capital (Gantt.build_trades sm)
        (build_dates s (s + n)) (s + n) = some v ∧ starting_capital ≤ v ∧
      (Gantt.build_trades sm = [] → v = starting_capital)) := by
  obtain ⟨rest0, hdec⟩ : ∃ r, build_dates s (s + n) = s :: r :=
    ⟨_, build_dates_cons s n⟩
  have hopt : Gantt.optimize_table starting_capital (Gantt.build_trades sm)
      (build_dates s (s + n))
      = Gantt.dpScan starting_capital
          (Gantt.tradesByBuy (Gantt.build_trades sm)) none (s :: rest0)
          (Gantt.tset (fun _ => none) s starting_capital) := by
    rw [hdec]
    rfl
  have hsort : List.Sorted (· < ·) (s :: rest0) := hdec ▸ build_dates_sorted s n
  have htr : ∀ d ∈ s :: rest0,
      ∀ t ∈ Gantt.tradesByBuy (Gantt.build_trades sm) d, d < t.sell_date := by
    intro d _ t ht
    obtain ⟨htm, hbd⟩ := (Gantt.tradesByBuy_iff _ _ _).mp ht
    have := Gantt.build_trades_mem sm hkeys t htm
    rw [← hbd]
    exact this.2.2
  have hm0 : Gantt.tset (fun _ => none) s starting_capital s
      = some starting_capital := Gantt.tset_self _ _ _
  have hprops := Gantt.dpScan_head_props starting_capital
    (Gantt.tradesByBuy (Gantt.build_trades sm)) rest0 s none
    (Gantt.tset (fun _ => none) s starting_capital) starting_capital
    hsort htr hm0
  refine ⟨?_, ?_, ?_⟩
  · intro d hd
    rw [hdec] at hd
    obtain ⟨v, hv, -⟩ := hprops.2 d hd
    exact ⟨v, by rw [hopt]; exact hv⟩
  · intro d1 d2 hd1 hd2 hle v1 v2 hv1 hv2
    rw [hdec] at hd1 hd2
    rw [hopt] at hv1 hv2
    obtain ⟨c, hc, hall⟩ := Gantt.dpScan_descend starting_capital
      (Gantt.tradesByBuy (Gantt.build_trades sm)) (s :: rest0) none
      (Gantt.tset (fun _ => none) s starting_capital) d1 hsort htr
      (fun day r' heq => by
        cases heq
        exact ⟨starting_capital, hm0⟩) hd1
    obtain ⟨v2', hv2', hcv2⟩ := hall d2 hd2 hle
    rw [hv1] at hc
    rw [hv2] at hv2'
    have h1 := Option.some.inj hc
    have h2 := Option.some.inj hv2'
    rw [h1, h2]
    exact hcv2
  · have hlast : (s + n) ∈ s :: rest0 := by
      rw [← hdec]
      exact (build_dates_mem s n (s + n)).mpr ⟨Nat.le_add_right s n, le_refl _⟩
    obtain ⟨v, hv, hcv⟩ := hprops.2 (s + n) hlast
    refine ⟨v, by rw [hopt]; exact hv, hcv, ?_⟩
    intro hempty
    have htb : ∀ d, Gantt.tradesByBuy (Gantt.build_trades sm) d = [] := by
      intro d
      rw [hempty]
      rfl
    have hbound : ∀ k w, Gantt.tset (fun _ => none) s starting_capital k = some w →
        w ≤ starting_capital := by
      intro k w hw
      by_cases hk : k = s
      · subst hk
        rw [Gantt.tset_self] at hw
        exact le_of_eq (Option.some.inj hw).symm
      · rw [Gantt.tset_other _ _ _ _ hk] at hw
        exact Option.noConfusion hw
    have hupper := Gantt.dpScan_upper starting_capital
      (Gantt.tradesByBuy (Gantt.build_trades sm)) htb (s :: rest0) none
      (Gantt.tset (fun _ => none) s starting_capital) hbound (s + n) v hv
    exact le_antisymm hupper hcv

/-- Witness for C9 at a concrete input: the empty asset map over the one-day
window starting at day 0 with starting capital 5. -/
theorem c9_dp_table_witness :
    (∀ d ∈ build_dates 0 (0 + 0),
      ∃ v, Gantt.optimize_table 5 (Gantt.build_trades [])
        (build_dates 0 (0 + 0)) d = some v) ∧
    (∀ d1 d2, d1 ∈ build_dates 0 (0 + 0) → d2 ∈ build_dates 0 (0 + 0) →
      d1 ≤ d2 → ∀ v1 v2,
      Gantt.optimize_table 5 (Gantt.build_trades [])
        (build_dates 0 (0 + 0)) d1 = some v1 →
      Gantt.optimize_table 5 (Gantt.build_trades [])
        (build_dates 0 (0 + 0)) d2 = some v2 → v1 ≤ v2) ∧
    (∃ v, Gantt.optimize_table 5 (Gantt.build_trades [])
        (build_dates 0 (0 + 0)) (0 + 0) = some v ∧ (5:ℚ) ≤ v ∧
      (Gantt.build_trades [] = [] → v = 5)) :=
  c9_dp_table [] (by simp) 0 0 5

/-- C2: over the same price data and contiguous date range, and the same
positive starting capital, the ending capital of the global path optimizer
(the terminal `best_capital` value computed by `optimize_trades` over the
trades of `build_trades`, which the reconstruction reads back as the run's
ending capital) is at least the ending capital of `simulate_daily_strategy`
under each of the three allocation policies, in exact arithmetic. -/
theorem c2_dp_dominates_simulator (sm : List Gantt.AssetSeries)
    (hkeys : ∀ a ∈ sm, (a.series.map (fun p => p.1)).Nodup)
    (s n : ℕ) (strategy_name : String)
    (hname : strategy_name ∈ (["all_in", "equal_split", "greedy_one_unit"] : List String))
    (starting_capital : ℚ) (hc : 0 < starting_capital)
    (summaries : List Strategy.DailySummary) (trades : List Strategy.Trade)
    (ending : ℚ)
    (hsim : Strategy.simulate_daily_strategy (build_dates s (s + n))
        (Strategy.build_opportunities (build_dates s (s + n)) (priceMapOf sm))
        strategy_name starting_capital = some (summaries, trades, ending)) :
    ∃ v, Gantt.optimize_table starting_capital (Gantt.build_trades sm)
        (build_dates s (s + n)) (s + n) = some v ∧ ending ≤ v := by
  obtain ⟨rest0, hdec⟩ : ∃ r, build_dates s (s + n) = s :: r :=
    ⟨_, build_dates_cons s n⟩
  have hsort : List.Sorted (· < ·) (s :: rest0) := hdec ▸ build_dates_sorted s n
  have hnodup : (s :: rest0).Nodup :=
    (hsort.imp (fun h => ne_of_lt h) : List.Pairwise (· ≠ ·) (s :: rest0))
  have htr : ∀ d ∈ s :: rest0,
      ∀ t ∈ Gantt.tradesByBuy (Gantt.build_trades sm) d, d < t.sell_date := by
    intro d _ t ht
    obtain ⟨htm, hbd⟩ := (Gantt.tradesByBuy_iff _ _ _).mp ht
    have := Gantt.build_trades_mem sm hkeys t htm
    rw [← hbd]
    exact this.2.2
  have hopp : ∀ p ∈ (s :: rest0).zip rest0,
      ∀ o ∈ Strategy.build_opportunities (build_dates s (s + n))
        (priceMapOf sm) p.1,
      0 < o.buy_price ∧ o.buy_price < o.sell_price ∧
      o.gain_pct = (o.sell_price - o.buy_price) / o.buy_price ∧
      ∃ t ∈ Gantt.tradesByBuy (Gantt.build_trades sm) p.1,
        t.sell_date = p.2 ∧ t.buy_price = o.buy_price ∧
        t.sell_price = o.sell_price := by
    intro p hp o ho
    obtain ⟨hbp, hsp, hgp, hbd, nd', hnd', hsell, e, he, heid, hlkd, hlkn⟩ :=
      Strategy.build_opportunities_mem (build_dates s (s + n)) (priceMapOf sm)
        p.1 o ho
    have hzip : (p.1, p.2) ∈ (build_dates s (s + n)).zip (build_dates s (s + n)).tail := by
      rw [hdec]
      exact hp
    have hndeq : nd' = p.2 := by
      have := zip_tail_fun (build_dates s (s + n)) (hdec ▸ hnodup)
        (p.1, nd') (p.1, p.2) hnd' hzip rfl
      exact this
    obtain ⟨a, ha, haeq⟩ := List.mem_map.mp he
    have haid : a.asset_id = e.1 := congrArg Prod.fst haeq
    have hser : a.series = e.2 := congrArg Prod.snd haeq
    have hlt : p.1 < p.2 := zip_tail_lt (build_dates s (s + n))
      (hdec ▸ hsort) (p.1, p.2) hzip
    obtain ⟨t, htmem, htsell, htbp, htsp⟩ := Gantt.build_trades_of_pair sm a ha
      (hkeys a ha) p.1 p.2 o.buy_price o.sell_price
      (by rw [hser]; rw [← hndeq] at *; exact hlkd)
      (by rw [hser, ← hndeq]; exact hlkn)
      hlt hbp hsp
    exact ⟨hbp, hsp, hgp, t, htmem, htsell, htbp, htsp⟩
  have hm0 : Gantt.tset (fun _ => none) s starting_capital s
      = some starting_capital := Gantt.tset_self _ _ _
  rw [Strategy.simulate_daily_strategy] at hsim
  rw [hdec] at hsim hopp
  have hmain := simDp_main (Gantt.tradesByBuy (Gantt.build_trades sm))
    (Strategy.build_opportunities (s :: rest0) (priceMapOf sm))
    strategy_name hname starting_capital rest0 s none
    (Gantt.tset (fun _ => none) s starting_capital)
    starting_capital starting_capital [] [] (summaries, trades, ending)
    hsort htr hopp hm0 (le_of_lt hc) (le_refl _) hsim
  obtain ⟨v, hv, hev⟩ := hmain
  refine ⟨v, ?_, hev⟩
  have hopt : Gantt.optimize_table starting_capital (Gantt.build_trades sm)
      (build_dates s (s + n))
      = Gantt.dpScan starting_capital
          (Gantt.tradesByBuy (Gantt.build_trades sm)) none (s :: rest0)
          (Gantt.tset (fun _ => none) s starting_capital) := by
    rw [hdec]
    rfl
  rw [hopt]
  have hlasteq : (s :: rest0).getLast (List.cons_ne_nil s rest0) = s + n := by
    have h1 := build_dates_getLast s n (by rw [hdec]; exact List.cons_ne_nil s rest0)
    rw [← h1]
    congr 1
    · exact hdec.symm
  rw [← hlasteq]
  exact hv

/-- Witness for C2 at a concrete input: the empty asset map over the one-day
window with the all-in policy and starting capital 100. -/
theorem c2_dp_dominates_simulator_witness :
    ∃ v, Gantt.optimize_table 100 (Gantt.build_trades [])
        (build_dates 0 (0 + 0)) (0 + 0) = some v ∧ (100:ℚ) ≤ v :=
  c2_dp_dominates_simulator [] (by simp) 0 0 "all_in" (by simp) 100
    (by norm_num) [] [] 100 rfl

end PoeMarket
